import Mathlib

/-! crackserver: the command processor and the crack job.

A shallow embedding of `src/a4/crackserver.c`.  C strings are lists of
characters (the bytes before the terminating NUL), `NULL` is `none`, and the
platform hash `crypt_r` is a parameter `H : plaintext → salt → ciphertext`.
The worker threads of one crack job are a step function on a job state; the
order in which the workers take their steps is a parameter (a list of thread
ids), so a statement about every run quantifies over every such list.
A request line of one field makes `do_command` read the slot that follows the
array of its fields; what that read finds is a parameter as well.
Start-up takes what libc and the system give (the results of `getopt_long`,
the lines of the dictionary file, the descriptor of the socket) as arguments,
an `exit` is an error value, and the admission of connections is a step
function over the events of the listener and of the client threads.  The
client of `src/a4/crackclient.c` follows in the namespace `CrackClient`.
-/

namespace CrackServer

/-- A C string: the characters that precede the terminating NUL. -/
abbrev CStr := List Char

/-! ## Global definitions -/

def MAX_WORD_LEN : Nat := 8

def MAX_COMMAND_ARGS : Nat := 3

def SALT_LENGTH : Nat := 2

def MAX_THREADS : Nat := 50

def CRYPT_LEN : Nat := 13

/-- The characters a salt may be made of: `PLAINTEXT_CHARS` of the source. -/
def PLAINTEXT_CHARS : CStr :=
  ['a', 'b', 'c', 'd', 'e', 'f', 'g', 'h', 'i', 'j', 'k', 'l', 'm',
   'n', 'o', 'p', 'q', 'r', 's', 't', 'u', 'v', 'w', 'x', 'y', 'z',
   'A', 'B', 'C', 'D', 'E', 'F', 'G', 'H', 'I', 'J', 'K', 'L', 'M',
   'N', 'O', 'P', 'Q', 'R', 'S', 'T', 'U', 'V', 'W', 'X', 'Y', 'Z',
   '0', '1', '2', '3', '4', '5', '6', '7', '8', '9', '.', '/']

/-- The salt alphabet as the specification writes it, `[A-Za-z0-9./]`, by
character code. -/
def saltAlphabet (c : Char) : Bool :=
  (65 ≤ c.toNat && c.toNat ≤ 90) || (97 ≤ c.toNat && c.toNat ≤ 122) ||
    (48 ≤ c.toNat && c.toNat ≤ 57) || c.toNat == 46 || c.toNat == 47

/-- The literal `":invalid\n"` returned by `do_command` and `crack`. -/
def INVALID : CStr := [':', 'i', 'n', 'v', 'a', 'l', 'i', 'd', '\n']

/-- The literal `":failed\n"` returned by `crack` and stored by `crack_thread`. -/
def FAILED : CStr := [':', 'f', 'a', 'i', 'l', 'e', 'd', '\n']

/-- The dictionary struct: `words`, with `numWords` the number of its entries
(the mutex pointer carries no data). -/
structure Dictionary where
  words : List CStr

/-- The field `numWords`: the count of the entries of `words`. -/
def Dictionary.numWords (dict : Dictionary) : Nat := dict.words.length

/-! ## libc and course-library helpers -/

/-- The libc `isdigit` on a character. -/
def isdigit (c : Char) : Bool := decide ('0' ≤ c) && decide (c ≤ '9')

/-- The libc `isspace` in the C locale. -/
def isspace (c : Char) : Bool :=
  c == ' ' || c == '\t' || c == '\n' || c == '\x0b' || c == '\x0c' || c == '\r'

/-- The libc `strlen`. -/
def strlen (s : CStr) : Nat := s.length

/-- The libc `strspn`: the length of the longest initial segment of `s` made
only of characters of `accept`. -/
def strspn : CStr → CStr → Nat
  | [], _ => 0
  | c :: cs, accept => if accept.contains c then 1 + strspn cs accept else 0

/-- The value of the leading decimal digits of a string, from an accumulator. -/
def atoi_digits : CStr → Nat → Nat
  | [], acc => acc
  | c :: cs, acc =>
    if isdigit c then atoi_digits cs (acc * 10 + (c.toNat - '0'.toNat)) else acc

/-- The libc `atoi`, as glibc computes it: `strtol` in base 10 (leading white
space, an optional sign, the leading digits, saturated to the range of `long`)
converted to a 32-bit `int`. -/
def atoi (s : CStr) : Int :=
  let body := s.dropWhile isspace
  let signed : Bool × CStr :=
    match body with
    | '-' :: t => (true, t)
    | '+' :: t => (false, t)
    | _ => (false, body)
  let v : Int := (atoi_digits signed.2 0 : Nat)
  let l : Int := if signed.1 then max (-v) (-(2 ^ 63)) else min v (2 ^ 63 - 1)
  (l + 2 ^ 31) % 2 ^ 32 - 2 ^ 31

/-- The fields of `str` when `remaining` more fields may still be started
(`unlimited` lifts the bound): a separator starts a new field unless the last
permitted field has been reached, and that last field takes the rest of the
string, separators included. -/
def split_fields (split : Char) (unlimited : Bool) : Nat → CStr → List CStr
  | _, [] => [[]]
  | remaining, c :: cs =>
    if c = split ∧ (unlimited = true ∨ 1 < remaining) then
      [] :: split_fields split unlimited (remaining - 1) cs
    else
      match split_fields split unlimited remaining cs with
      | [] => [[c]]
      | f :: fs => (c :: f) :: fs

/-- The course library's `split_by_char(str, split, maxFields)` (csse2310a3,
not part of the repository; modelled from its manual page): the fields of
`str` separated by `split`, at most `maxFields` of them when `maxFields` is
not 0, returned as a NULL-terminated array; here the list of the fields. -/
def split_by_char (str : CStr) (split : Char) (maxFields : Nat) : List CStr :=
  split_fields split (maxFields == 0) maxFields str

/-! ## is_digits, num_places -/

/-- The function `is_digits`: false on the empty string, otherwise whether every
character is a decimal digit. -/
def is_digits (input : CStr) : Bool :=
  if strlen input = 0 then false else input.all isdigit

/-- The recursion of `num_places`, with the recursion depth made explicit. -/
def num_places_loop : Nat → Nat → Nat
  | 0, _ => 1
  | fuel + 1, n => if n < 10 then 1 else 1 + num_places_loop fuel (n / 10)

/-- The function `num_places`: the number of decimal places of `n`. -/
def num_places (n : Nat) : Nat := num_places_loop n n

/-! ## The crack worker -/

/-- The `start` of `crack_thread`: `threadId * (numWords / numThreads)`. -/
def crack_thread_start (numWords numThreads threadId : Nat) : Nat :=
  threadId * (numWords / numThreads)

/-- The `end` of `crack_thread`: `numWords` for the thread with
`threadId == numThreads - 1`, the next thread's start otherwise. -/
def crack_thread_end (numWords numThreads threadId : Nat) : Nat :=
  if threadId + 1 = numThreads then numWords
  else (threadId + 1) * (numWords / numThreads)

/-- The control point of one worker inside `crack_thread`. -/
inductive Pc where
  /-- At the head of the `for` loop with counter `i`: the loop test and the
  read of the stop flag come next. -/
  | test (i : Nat)
  /-- The stop flag was read as 0 for counter `i`: the hash of `words[i]`, the
  comparison and, on a match, the writes of the flag and of the result come
  next. -/
  | hash (i : Nat)
  /-- The thread has returned. -/
  | done
  deriving DecidableEq, Repr

/-- The part of `CrackThreadData` a worker changes, with its control point:
the `result` slot (`none` is NULL).  The other fields are the same for every
worker of a job and are passed as arguments. -/
structure CrackThreadData where
  pc : Pc
  result : Option CStr
  deriving DecidableEq, Repr

/-- One step of `crack_thread` for the worker `threadId`: it is given the
current value of the shared stop flag and returns the flag's new value with
the worker's new state. -/
def crack_thread_step (H : CStr → CStr → CStr) (encrypted salt : CStr)
    (dict : Dictionary) (numThreads threadId : Nat) (stopFlag : Bool)
    (data : CrackThreadData) : Bool × CrackThreadData :=
  match data.pc with
  | Pc.test i =>
    if i < crack_thread_end dict.numWords numThreads threadId then
      if stopFlag then (stopFlag, { pc := Pc.done, result := none })
      else (stopFlag, { data with pc := Pc.hash i })
    else (stopFlag, { pc := Pc.done, result := some FAILED })
  | Pc.hash i =>
    if H (dict.words.getD i []) salt = encrypted then
      (true, { pc := Pc.done, result := some (dict.words.getD i []) })
    else (stopFlag, { data with pc := Pc.test (i + 1) })
  | Pc.done => (stopFlag, data)

/-! ## The crack coordinator -/

/-- The shared state of one crack job: the stop flag and the array
`threadData`, indexed by thread id. -/
structure CrackJob where
  stopFlag : Bool
  threadData : Nat → CrackThreadData

/-- The job as the first loop of `crack` sets it up: flag 0, every result NULL,
every worker at the head of its loop with `i = start`. -/
def crack_init (dict : Dictionary) (numThreads : Nat) : CrackJob :=
  { stopFlag := false
    threadData := fun t =>
      { pc := Pc.test (crack_thread_start dict.numWords numThreads t)
        result := none } }

/-- The worker `t` takes one step of the job (no worker has an id of
`numThreads` or more). -/
def crack_step (H : CStr → CStr → CStr) (encrypted salt : CStr)
    (dict : Dictionary) (numThreads : Nat) (job : CrackJob) (t : Nat) : CrackJob :=
  if t < numThreads then
    let r := crack_thread_step H encrypted salt dict numThreads t job.stopFlag
      (job.threadData t)
    { stopFlag := r.1
      threadData := fun j => if j = t then r.2 else job.threadData j }
  else job

/-- The workers take their steps in the order `sched` gives. -/
def crack_run (H : CStr → CStr → CStr) (encrypted salt : CStr)
    (dict : Dictionary) (numThreads : Nat) (job : CrackJob) (sched : List Nat) :
    CrackJob :=
  sched.foldl (crack_step H encrypted salt dict numThreads) job

/-- The steps left to the workers once the given interleaving is used up:
`pthread_join` waits for a worker until it has returned, so each worker, in
join order, gets as many steps as a full scan of the dictionary can take. -/
def crack_join_sched (numWords numThreads : Nat) : List Nat :=
  (List.range numThreads).flatMap (fun t => List.replicate (2 * numWords + 2) t)

/-- The second loop of `crack` from thread `i` on, `k` threads left: the
result of the first joined thread whose slot is not NULL and does not begin
with `':'`; `none` when the loop ends with `result == NULL`. -/
def crack_join (threadData : Nat → CrackThreadData) : Nat → Nat → Option CStr
  | 0, _ => none
  | k + 1, i =>
    match (threadData i).result with
    | some r =>
      if r.head? ≠ some ':' then some r else crack_join threadData k (i + 1)
    | none => crack_join threadData k (i + 1)

/-- The search of `crack` (after its two validity checks): spawn the workers,
let them run under the interleaving `sched`, join them, and answer with the
joined result or `":failed\n"`. -/
def crack_search (H : CStr → CStr → CStr) (encrypted salt : CStr)
    (numThreads : Nat) (dict : Dictionary) (sched : List Nat) : CStr :=
  let job := crack_run H encrypted salt dict numThreads (crack_init dict numThreads)
    (sched ++ crack_join_sched dict.numWords numThreads)
  match crack_join job.threadData numThreads 0 with
  | some result => result
  | none => FAILED

/-- The function `crack`; `sched` is the interleaving of the worker threads. -/
def crack (H : CStr → CStr → CStr) (encrypted : CStr) (numThreads : Nat)
    (dict : Dictionary) (sched : List Nat) : CStr :=
  if strlen encrypted ≠ CRYPT_LEN then INVALID
  else
    let salt := encrypted.take SALT_LENGTH
    if strspn salt PLAINTEXT_CHARS ≠ 2 then INVALID
    else crack_search H encrypted salt numThreads dict sched

/-! ## The command processor and the connection handler -/

/-- The function `do_command`.  `split_by_char` gives the array of the fields
followed by one NULL.  `arguments[2]` is the third field when the line has
three fields and the terminating NULL when it has two.  When the line has one
field (no space in it) the terminating NULL is `arguments[1]`, and
`arguments[2]` is the slot that follows the array: `beyond` is what the read
of that slot finds, `none` for NULL and `some g` for a pointer to a string `g`.
The result is `none` where the source calls `crack` or `crypt_r` on
`arguments[1]` while it is NULL, which has no defined result. -/
def do_command (H : CStr → CStr → CStr) (command : CStr) (dict : Dictionary)
    (sched : List Nat) (beyond : Option CStr) : Option CStr :=
  let arguments := split_by_char command ' ' MAX_COMMAND_ARGS
  let argument2 : Option CStr := if arguments.length = 1 then beyond else arguments.get? 2
  match argument2 with
  | none => some INVALID
  | some arg2 =>
    let arg0 := arguments.getD 0 []
    let arg1 : Option CStr := arguments.get? 1
    if arg0 = ['c', 'r', 'a', 'c', 'k'] then
      if strlen arg2 > num_places MAX_THREADS || !is_digits arg2 then some INVALID
      else
        let crackThreads := atoi arg2
        if crackThreads > MAX_THREADS || crackThreads ≤ 0 then some INVALID
        else
          match arg1 with
          | some encrypted => some (crack H encrypted crackThreads.toNat dict sched)
          | none => none
    else if arg0 = ['c', 'r', 'y', 'p', 't'] then
      if strlen arg2 ≠ 2 then some INVALID
      else if strspn arg2 PLAINTEXT_CHARS ≠ 2 then some INVALID
      else
        match arg1 with
        | some phrase => some (H phrase arg2)
        | none => none
    else some INVALID

/-- The function `add_new_line`: the string with one `'\n'` appended. -/
def add_new_line (line : CStr) : CStr := line ++ ['\n']

/-- The request loop of `client_thread`: for every line `read_line` returns
before end of input, the string written to the socket.  Each line comes with
the interleaving of the worker threads of the crack job it may start and with
what a read of the slot past the array of its fields finds.  The result is
`none` when the response to one of the lines is not defined. -/
def client_thread (H : CStr → CStr → CStr) (dict : Dictionary) :
    List (CStr × List Nat × Option CStr) → Option (List CStr)
  | [] => some []
  | (currentIn, sched, beyond) :: rest =>
    match do_command H currentIn dict sched beyond with
    | none => none
    | some response =>
      let written := if response.head? ≠ some ':' then add_new_line response else response
      match client_thread H dict rest with
      | none => none
      | some more => some (written :: more)

/-! ## A stand-in hash for concrete runs -/

/-- The character a stand-in hash writes for a character of the word: itself
when it belongs to the alphabet of `crypt`, `'.'` otherwise. -/
def toyChar (c : Char) : Char := if PLAINTEXT_CHARS.contains c then c else '.'

/-- A concrete hash with the shape of `crypt`: the two salt characters, then
the first eight characters of the word, mapped into the alphabet and padded
with `'.'` to eleven. -/
def toyHash (word salt : CStr) : CStr :=
  salt.take 2 ++ ((word.take 8).map toyChar ++ List.replicate 11 '.').take 11

/-- The decimal numeral of a thread count, as a client writes it. -/
def numeral (n : Nat) : CStr := Nat.toDigits 10 n


/-! ## Invariants of a crack job -/

/-- The word at index `i` hashes to the target. -/
def matchesAt (H : CStr → CStr → CStr) (encrypted salt : CStr) (dict : Dictionary)
    (i : Nat) : Prop :=
  H (dict.words.getD i []) salt = encrypted

instance (H : CStr → CStr → CStr) (encrypted salt : CStr) (dict : Dictionary) (i : Nat) :
    Decidable (matchesAt H encrypted salt dict i) := by
  unfold matchesAt
  infer_instance

/-- The index `i` is the first index of worker `t`'s slice, at or after the
slice's start, whose word hashes to the target. -/
def firstMatchOf (H : CStr → CStr → CStr) (encrypted salt : CStr) (dict : Dictionary)
    (n t i : Nat) : Prop :=
  crack_thread_start dict.numWords n t ≤ i ∧ i < crack_thread_end dict.numWords n t ∧
    matchesAt H encrypted salt dict i ∧
    ∀ j, crack_thread_start dict.numWords n t ≤ j → j < i →
      ¬ matchesAt H encrypted salt dict j

/-- What holds of worker `t` at each control point, given the stop flag. -/
def WorkerInv (H : CStr → CStr → CStr) (encrypted salt : CStr) (dict : Dictionary)
    (n : Nat) (stopFlag : Bool) (t : Nat) (data : CrackThreadData) : Prop :=
  match data.pc with
  | Pc.test i =>
    data.result = none ∧ crack_thread_start dict.numWords n t ≤ i ∧
      ∀ j, crack_thread_start dict.numWords n t ≤ j → j < i →
        ¬ matchesAt H encrypted salt dict j
  | Pc.hash i =>
    data.result = none ∧ crack_thread_start dict.numWords n t ≤ i ∧
      i < crack_thread_end dict.numWords n t ∧
      ∀ j, crack_thread_start dict.numWords n t ≤ j → j < i →
        ¬ matchesAt H encrypted salt dict j
  | Pc.done =>
    (data.result = some FAILED ∧
        ∀ j, crack_thread_start dict.numWords n t ≤ j →
          j < crack_thread_end dict.numWords n t → ¬ matchesAt H encrypted salt dict j) ∨
      (data.result = none ∧ stopFlag = true) ∨
      ∃ i, firstMatchOf H encrypted salt dict n t i ∧
        data.result = some (dict.words.getD i [])

/-- The invariant of a crack job: every worker satisfies `WorkerInv`, and a
set stop flag comes with a worker whose result slot holds a matching word. -/
def JobInv (H : CStr → CStr → CStr) (encrypted salt : CStr) (dict : Dictionary)
    (n : Nat) (job : CrackJob) : Prop :=
  (∀ t, t < n → WorkerInv H encrypted salt dict n job.stopFlag t (job.threadData t)) ∧
    (job.stopFlag = true → ∃ t i, t < n ∧ firstMatchOf H encrypted salt dict n t i ∧
      (job.threadData t).result = some (dict.words.getD i []))

/-- An upper bound on the steps worker `t` can still take. -/
def stepsLeft (dict : Dictionary) (n t : Nat) (data : CrackThreadData) : Nat :=
  match data.pc with
  | Pc.test i => 2 * (crack_thread_end dict.numWords n t - i) + 1
  | Pc.hash i => 2 * (crack_thread_end dict.numWords n t - (i + 1)) + 2
  | Pc.done => 0

/-! ## The join loop, thread by thread -/

/-- The reply of `crack` from the result slots: the value of `result` after the
second loop, or `":failed\n"` when it is still NULL. -/
def crack_reply (threadData : Nat → CrackThreadData) (numThreads : Nat) : CStr :=
  match crack_join threadData numThreads 0 with
  | some result => result
  | none => FAILED

/-- The number of `pthread_join` calls the second loop of `crack` makes from
thread `i` on, `k` threads left: the loop joins thread `i`, and leaves through
`break` as soon as a joined slot is not NULL and does not begin with `':'`. -/
def crack_joined (threadData : Nat → CrackThreadData) : Nat → Nat → Nat
  | 0, _ => 0
  | k + 1, i =>
    match (threadData i).result with
    | some r =>
      if r.head? ≠ some ':' then 1 else 1 + crack_joined threadData k (i + 1)
    | none => 1 + crack_joined threadData k (i + 1)

/-! ## Start-up: initialise, process_dict, main -/

def MAX_PORTNUM : Int := 65535

def MIN_PORTNUM : Int := 1024

def ANY_PORTNUM : CStr := ['0']

def DEFAULT_DICT : CStr := "/usr/share/dict/words".toList

def UNLIMITED_CONNECTIONS : Int := 0

def MAXCONN_ARG : Int := 1

def PORT_ARG : Int := 2

def DICT_ARG : Int := 3

def OK : Nat := 0

def USAGE_ERR : Nat := 1

def DICT_OPEN_ERR : Nat := 2

def EMPTY_DICT : Nat := 3

def PORTNUM_ERR : Nat := 4

/-- The struct `ServerParams` (the semaphore is the atomicity of the steps of
`process_connections_step`). -/
structure ServerParams where
  dictPath : CStr
  dict : Dictionary
  port : CStr
  socketfd : Int
  maxConnections : Int
  currentNumConns : Int
  totalConns : Int

/-- The three flags of `initialise`. -/
structure OptionFlags where
  maxconnFlag : Bool
  portFlag : Bool
  dictFlag : Bool

/-- The `while` loop of `initialise`.  `opts` holds what the successive calls
of `getopt_long` give before it returns -1: the value returned and `optarg`
(`getopt_long` is libc; a missing argument gives `':'` and an unknown option
`'?'`, neither of which is one of the three option values).  An `exit` of
`print_usage` is the error `USAGE_ERR`. -/
def initialise_loop : List (Int × CStr) → OptionFlags → ServerParams →
    Except Nat ServerParams
  | [], _, params => Except.ok params
  | (opt, optarg) :: more, flags, params =>
    if opt = MAXCONN_ARG ∧ flags.maxconnFlag = false then
      if is_digits optarg then
        let maxConn := atoi optarg
        if maxConn ≥ 0 then
          initialise_loop more { flags with maxconnFlag := true }
            { params with maxConnections := maxConn }
        else Except.error USAGE_ERR
      else Except.error USAGE_ERR
    else if opt = PORT_ARG ∧ flags.portFlag = false then
      if is_digits optarg then
        let portNum := atoi optarg
        if portNum = atoi ANY_PORTNUM ∨ (portNum ≥ MIN_PORTNUM ∧ portNum ≤ MAX_PORTNUM) then
          initialise_loop more { flags with portFlag := true } { params with port := optarg }
        else Except.error USAGE_ERR
      else Except.error USAGE_ERR
    else if opt = DICT_ARG ∧ flags.dictFlag = false then
      initialise_loop more { flags with dictFlag := true } { params with dictPath := optarg }
    else Except.error USAGE_ERR

/-- The function `initialise`: `opts` as for `initialise_loop`, and `operands`
the arguments `argv[optind .. argc)` left once `getopt_long` has returned -1. -/
def initialise (opts : List (Int × CStr)) (operands : List CStr) : Except Nat ServerParams :=
  match initialise_loop opts { maxconnFlag := false, portFlag := false, dictFlag := false }
      { dictPath := DEFAULT_DICT, dict := { words := [] }, port := ANY_PORTNUM, socketfd := 0,
        maxConnections := UNLIMITED_CONNECTIONS, currentNumConns := 0, totalConns := 0 } with
  | Except.error e => Except.error e
  | Except.ok params =>
    if operands.length > 0 then Except.error USAGE_ERR else Except.ok params

/-- The conversion of a `size_t` to `int`, as `int wordLen = strlen(...)` does
it: the value modulo 2^32, read as a signed 32-bit number. -/
def toInt32 (n : Nat) : Int := ((n : Int) + 2 ^ 31) % 2 ^ 32 - 2 ^ 31

/-- The reading loop of `process_dict` over the lines `read_line` returns: the
array `words` and the counter `numWords`.  The store `words[numWords] = line`
keeps the entries below `numWords` and sets the entry `numWords`. -/
def process_dict_loop : List CStr → List CStr × Nat → List CStr × Nat
  | [], state => state
  | currentLine :: more, (words, numWords) =>
    let wordLen := toInt32 (strlen currentLine)
    if wordLen > (MAX_WORD_LEN : Int) ∨ wordLen = 0 then
      process_dict_loop more (words, numWords)
    else
      process_dict_loop more (words.take numWords ++ [currentLine], numWords + 1)

/-- The function `process_dict`.  `fopen` gives the lines of the file at a path,
or `none` when the file cannot be opened; an `exit` is the error with its code.
The sizes passed to `realloc` are not part of this model. -/
def process_dict (fopen : CStr → Option (List CStr)) (dictPath : CStr) :
    Except Nat Dictionary :=
  match fopen dictPath with
  | none => Except.error DICT_OPEN_ERR
  | some lines =>
    let built := process_dict_loop lines ([], 0)
    if built.2 = 0 then Except.error EMPTY_DICT
    else Except.ok { words := built.1 }

/-- The function `main` up to its call of `process_connections`: the error is
the exit code, the value the parameters with which the accept loop starts.
`process_port` (sockets) is a parameter: the descriptor, or -1. -/
def main (opts : List (Int × CStr)) (operands : List CStr)
    (fopen : CStr → Option (List CStr)) (process_port : CStr → Int) :
    Except Nat ServerParams :=
  match initialise opts operands with
  | Except.error e => Except.error e
  | Except.ok params =>
    match process_dict fopen params.dictPath with
    | Except.error e => Except.error e
    | Except.ok dict =>
      let socketfd := process_port params.port
      if socketfd = -1 then Except.error PORTNUM_ERR
      else Except.ok { params with currentNumConns := 0, totalConns := 0, dict := dict,
                                   socketfd := socketfd }

/-! ## Admission of connections -/

/-- Where the listener thread stands in the loop of `process_connections`. -/
inductive ListenerPc where
  /-- Inside `accept`, waiting for a connection. -/
  | accepting
  /-- Holding an accepted connection, between the first `sem_wait` and the
  increment of the counter. -/
  | admitting
  deriving DecidableEq, Repr

/-- The server while it runs: its parameters, the control point of the
listener, and the number of client threads that were created and have not yet
decremented the counter. -/
structure Server where
  params : ServerParams
  listener : ListenerPc
  handlers : Nat

/-- What can happen next; each is atomic, the counter being read and written
only with the semaphore held. -/
inductive Event where
  /-- The call of `accept` returns a connection. -/
  | accepted
  /-- The listener, holding the semaphore, evaluates the test of its waiting
  loop: it posts and waits again, or goes on to the increment. -/
  | admission
  /-- A client thread reaches end of input and decrements the counter. -/
  | leave
  deriving DecidableEq, Repr

/-- One step of the server. An event that cannot happen in the state leaves it
unchanged. -/
def process_connections_step (s : Server) : Event → Server
  | Event.accepted =>
    match s.listener with
    | ListenerPc.accepting => { s with listener := ListenerPc.admitting }
    | ListenerPc.admitting => s
  | Event.admission =>
    match s.listener with
    | ListenerPc.accepting => s
    | ListenerPc.admitting =>
      if s.params.maxConnections ≠ 0 ∧ s.params.currentNumConns ≥ s.params.maxConnections then s
      else
        { params := { s.params with currentNumConns := s.params.currentNumConns + 1,
                                    totalConns := s.params.totalConns + 1 }
          listener := ListenerPc.accepting
          handlers := s.handlers + 1 }
  | Event.leave =>
    match s.handlers with
    | 0 => s
    | h + 1 =>
      { s with params := { s.params with currentNumConns := s.params.currentNumConns - 1 }
               handlers := h }

/-- The server as `main` hands it to `process_connections`. -/
def process_connections_init (params : ServerParams) : Server :=
  { params := { params with currentNumConns := 0, totalConns := 0 }
    listener := ListenerPc.accepting
    handlers := 0 }

/-- The server after a sequence of events. -/
def process_connections (s : Server) (events : List Event) : Server :=
  events.foldl process_connections_step s

end CrackServer

/-! crackclient: the client of `src/a4/crackclient.c`. -/

namespace CrackClient

def OK : Nat := 0

def CONNECTION_TERMINATED : Nat := 4

/-- The function `add_new_line` of the client. -/
def add_new_line (line : List Char) : List Char := line ++ ['\n']

/-- The function `process_command`: whether the line is to be sent, and the
line as the call leaves it. -/
def process_command (line : List Char) : Bool × List Char :=
  if line.head? = some '#' then (false, line)
  else if line.length = 0 then (false, line)
  else (true, add_new_line line)

/-- What `main` prints for a line `fromServer` read from the server. -/
def handle_server_output (fromServer : List Char) : List Char :=
  let fromServer := add_new_line fromServer
  if ":invalid\n".toList = fromServer then "Error in command\n".toList
  else if ":failed\n".toList = fromServer then "Unable to decrypt\n".toList
  else fromServer

/-- What a run of the client leaves: the strings written to the server, the
strings printed, and the exit code. -/
structure ClientRun where
  sent : List (List Char)
  printed : List (List Char)
  exitCode : Nat
  deriving DecidableEq, Repr

/-- The loop of `main` and the exit that follows it.  `input` holds the lines
`read_line` returns from the job stream before end of file, `fromSocket` the
lines it returns from the server before end of stream. -/
def main : List (List Char) → List (List Char) → ClientRun
  | [], _ => { sent := [], printed := [], exitCode := OK }
  | currentIn :: input, fromSocket =>
    if (process_command currentIn).1 = true then
      match fromSocket with
      | [] =>
        { sent := [(process_command currentIn).2], printed := [],
          exitCode := CONNECTION_TERMINATED }
      | fromServer :: more =>
        let run := main input more
        { sent := (process_command currentIn).2 :: run.sent
          printed := handle_server_output fromServer :: run.printed
          exitCode := run.exitCode }
    else main input fromSocket

end CrackClient

namespace CrackServer

/-! ## The sizes process_dict asks realloc for -/

/-- The size of a `char*` in bytes (LP64). -/
def SIZEOF_CHAR_PTR : Nat := 8

/-- The stores of the reading loop of `process_dict`, from a counter
`numWords`: for every retained line, the index `numWords` at which
`words[numWords] = currentLine` stores, with the byte size
`sizeof(char*) * dictionary.numWords + 1` the `realloc` just before it asks
for. -/
def process_dict_stores : List CStr → Nat → List (Nat × Nat)
  | [], _ => []
  | currentLine :: more, numWords =>
    if toInt32 (strlen currentLine) > (MAX_WORD_LEN : Int) ∨
        toInt32 (strlen currentLine) = 0 then
      process_dict_stores more numWords
    else
      (numWords, SIZEOF_CHAR_PTR * numWords + 1) :: process_dict_stores more (numWords + 1)

end CrackServer

/-! uqwordiply, the reference solution of `src/a1/solution/uqwordiply.c`. -/

namespace UqWordiplySolution

/-- The struct `WordList`: `numWords` and `wordArray` (NULL is the empty
array). -/
structure WordList where
  numWords : Nat
  wordArray : List (List Char)
  deriving DecidableEq, Repr

/-- The libc `isalpha` in the C locale. -/
def isalpha (c : Char) : Bool :=
  (65 ≤ c.toNat && c.toNat ≤ 90) || (97 ≤ c.toNat && c.toNat ≤ 122)

/-- The libc `tolower` in the C locale. -/
def tolower (c : Char) : Char :=
  if 65 ≤ c.toNat ∧ c.toNat ≤ 90 then Char.ofNat (c.toNat + 32) else c

/-- Whether the string `needle` stands at the start of `hay`. -/
def starts_with : List Char → List Char → Bool
  | _, [] => true
  | [], _ :: _ => false
  | h :: hs, n :: ns => h == n && starts_with hs ns

/-- The libc `strstr`: the rest of `hay` from the first occurrence of `needle`
on, or `none` (NULL) when there is none. -/
def strstr : List Char → List Char → Option (List Char)
  | [], needle => if starts_with [] needle then some [] else none
  | h :: hs, needle =>
    if starts_with (h :: hs) needle then some (h :: hs) else strstr hs needle

/-- The libc `strcasecmp`: the difference of the first two characters that
differ once lowered, 0 when there is none (the terminator counts as 0). -/
def strcasecmp : List Char → List Char → Int
  | [], [] => 0
  | [], b :: _ => 0 - ((tolower b).toNat : Int)
  | a :: _, [] => ((tolower a).toNat : Int)
  | a :: as, b :: bs =>
    if tolower a = tolower b then strcasecmp as bs
    else ((tolower a).toNat : Int) - ((tolower b).toNat : Int)

/-- The function `word_contains`: `strstr` converted to `bool`. -/
def word_contains (within wordToFind : List Char) : Bool :=
  (strstr within wordToFind).isSome

/-- The function `word_contains_only_letters`. -/
def word_contains_only_letters : List Char → Bool
  | [] => true
  | c :: word => if !isalpha c then false else word_contains_only_letters word

/-- The loop of `is_word_in_list` over the entries of the array. -/
def is_word_in_entries (word : List Char) : List (List Char) → Bool
  | [] => false
  | entry :: more => if entry = word then true else is_word_in_entries word more

/-- The function `is_word_in_list`: the loop runs over the first `numWords`
entries. -/
def is_word_in_list (word : List Char) (words : WordList) : Bool :=
  is_word_in_entries word (words.wordArray.take words.numWords)

/-- The function `add_word_to_list`: the array keeps its `numWords` entries and
gets a copy of the word at index `numWords`. -/
def add_word_to_list (words : WordList) (word : List Char) : WordList :=
  { numWords := words.numWords + 1
    wordArray := words.wordArray.take words.numWords ++ [word] }

/-- The loop of `find_longest_words_in_list` over the words still to visit,
with `maxLen` and `longestWords`. -/
def find_longest_words_loop : List (List Char) → Int → WordList → WordList
  | [], _, longestWords => longestWords
  | word :: more, maxLen, longestWords =>
    let wordLen := CrackServer.toInt32 word.length
    if wordLen = maxLen then
      find_longest_words_loop more maxLen (add_word_to_list longestWords word)
    else if wordLen > maxLen then
      find_longest_words_loop more wordLen
        (add_word_to_list { numWords := 0, wordArray := [] } word)
    else find_longest_words_loop more maxLen longestWords

/-- The function `find_longest_words_in_list`. -/
def find_longest_words_in_list (words : WordList) : WordList :=
  find_longest_words_loop (words.wordArray.take words.numWords) 0
    { numWords := 0, wordArray := [] }

/-- The function `check_guess`: the value returned and the message printed, if
any. -/
def check_guess (guess starterWord : List Char) (validWords previousGuesses : WordList) :
    Bool × Option (List Char) :=
  if !word_contains_only_letters guess then
    (false, some "Guesses must contain only letters - try again.\n".toList)
  else if !word_contains guess starterWord then
    (false, some "Guesses must contain the starter word - try again.\n".toList)
  else if strcasecmp guess starterWord = 0 then
    (false, some "Guesses can't be the starter word - try again.\n".toList)
  else if !is_word_in_list guess validWords then
    (false, some "Guess not found in dictionary - try again.\n".toList)
  else if is_word_in_list guess previousGuesses then
    (false, some "You've already guessed that word - try again.\n".toList)
  else (true, none)

end UqWordiplySolution

/-! uqwordiply, the submission of `src/a1/uqwordiply.c`. -/

namespace UqWordiply

/-- The libc `isalpha` in the C locale. -/
def isalpha (c : Char) : Bool :=
  (65 ≤ c.toNat && c.toNat ≤ 90) || (97 ≤ c.toNat && c.toNat ≤ 122)

/-- The loop of `str_all_alpha` from `i`, with the bound `strlen(guess) - 1` as
the `size_t` it is.  `guess[i]` at the length of the string is the terminator;
`fuel` bounds the iterations. -/
def str_all_alpha_loop (guess : List Char) (bound : Nat) : Nat → Nat → Bool
  | 0, _ => true
  | fuel + 1, i =>
    if i < bound then
      if !isalpha (guess.getD i (Char.ofNat 0)) then false
      else str_all_alpha_loop guess bound fuel (i + 1)
    else true

/-- The function `str_all_alpha`.  The bound is `strlen(guess) - 1` in
unsigned 64-bit arithmetic; the loop ends within `strlen(guess) + 1`
iterations, at the bound or at the terminator, which is not a letter. -/
def str_all_alpha (guess : List Char) : Bool :=
  str_all_alpha_loop guess ((guess.length + 2 ^ 64 - 1) % 2 ^ 64) (guess.length + 1) 0

end UqWordiply

/-! testuqwordiply, the test harness of `src/a3/testuqwordiply.c`. -/

namespace TestUqWordiply

def PROGRAM_TO_COMPARE : List Char := "demo-uqwordiply".toList

/-- An array of `char*` obtained from `malloc`: for each slot, `none` while
nothing was stored in it, else the pointer stored (`none` for NULL); and the
indices of the stores that fell outside the slots. -/
structure ArgArray where
  slots : List (Option (Option (List Char)))
  outside : List Nat
  deriving DecidableEq, Repr

/-- The array `malloc(n * sizeof(char*))` gives. -/
def ArgArray.malloc (n : Nat) : ArgArray :=
  { slots := List.replicate n none, outside := [] }

/-- The store `array[i] = value`. -/
def ArgArray.store (array : ArgArray) (i : Nat) (value : Option (List Char)) : ArgArray :=
  if i < array.slots.length then { array with slots := array.slots.set i (some value) }
  else { array with outside := array.outside ++ [i] }

/-- The `for` loop of `get_jobs` on one array, from index `i`:
`array[i] = strdup(args[i - 1])` for the arguments still to copy. -/
def get_jobs_copy : List (List Char) → Nat → ArgArray → ArgArray
  | [], _, array => array
  | arg :: more, i, array => get_jobs_copy more (i + 1) (array.store i (some arg))

/-- The argument array `get_jobs` builds for one job line: `args` are the
`numArgs` arguments `split_space_not_quote` gives, `first` the string stored
at index 0 (the file name for `mallocedArgs`, `PROGRAM_TO_COMPARE` for
`mallocedTestArgs`). -/
def get_jobs_args (first : List Char) (args : List (List Char)) : ArgArray :=
  let numArgs := args.length
  let array := ArgArray.malloc (numArgs + 2)
  let array := get_jobs_copy args 1 array
  let array := array.store (numArgs + 2) none
  array.store 0 (some first)

end TestUqWordiply

namespace CrackServer

/-! ## The slices of the workers -/

theorem slice_covers (M n idx : Nat) (hn : 1 ≤ n) (hidx : idx < M) :
    ∃ i, i < n ∧ crack_thread_start M n i ≤ idx ∧ idx < crack_thread_end M n i := by
  unfold crack_thread_start crack_thread_end
  by_cases hlt : idx / (M / n) + 1 < n ∧ 0 < M / n
  · obtain ⟨h1, hq⟩ := hlt
    refine ⟨idx / (M / n), by omega, Nat.div_mul_le_self idx (M / n), ?_⟩
    rw [if_neg (by omega)]
    exact (Nat.div_lt_iff_lt_mul hq).mp (Nat.lt_succ_self _)
  · refine ⟨n - 1, by omega, ?_, ?_⟩
    · rcases Nat.eq_zero_or_pos (M / n) with h0 | hq
      · simp [h0]
      · have h2 : n - 1 ≤ idx / (M / n) := by
          by_contra hc
          exact hlt ⟨by omega, hq⟩
        calc (n - 1) * (M / n) ≤ idx / (M / n) * (M / n) := Nat.mul_le_mul_right _ h2
          _ ≤ idx := Nat.div_mul_le_self idx (M / n)
    · rw [if_pos (by omega)]
      exact hidx

theorem slice_disjoint (M n idx i j : Nat) (hj : j < n) (hij : i < j)
    (hi2 : idx < crack_thread_end M n i) (hj1 : crack_thread_start M n j ≤ idx) : False := by
  unfold crack_thread_start at hj1
  unfold crack_thread_end at hi2
  rw [if_neg (by omega)] at hi2
  have : (i + 1) * (M / n) ≤ j * (M / n) := Nat.mul_le_mul_right _ hij
  omega

theorem slice_end_le (M n i : Nat) (hi : i < n) : crack_thread_end M n i ≤ M := by
  unfold crack_thread_end
  split
  · exact le_rfl
  · calc (i + 1) * (M / n) ≤ n * (M / n) := Nat.mul_le_mul_right _ hi
      _ ≤ M := Nat.mul_div_le M n

/-! ## The invariant is kept by every step -/

section Job

variable (H : CStr → CStr → CStr) (encrypted salt : CStr) (dict : Dictionary) (n : Nat)

theorem workerInv_mono {f g : Bool} {t : Nat} {data : CrackThreadData}
    (hfg : f = true → g = true)
    (h : WorkerInv H encrypted salt dict n f t data) :
    WorkerInv H encrypted salt dict n g t data := by
  unfold WorkerInv at h ⊢
  cases hpc : data.pc with
  | test i => simpa [hpc] using h
  | hash i => simpa [hpc] using h
  | done =>
    simp only [hpc] at h ⊢
    rcases h with h | ⟨h1, h2⟩ | h
    · exact Or.inl h
    · exact Or.inr (Or.inl ⟨h1, hfg h2⟩)
    · exact Or.inr (Or.inr h)

theorem crack_step_other (job : CrackJob) (t j : Nat) (hj : j ≠ t) :
    (crack_step H encrypted salt dict n job t).threadData j = job.threadData j := by
  unfold crack_step
  split
  · simp [hj]
  · rfl

theorem crack_step_flag (job : CrackJob) (t : Nat) (h : job.stopFlag = true) :
    (crack_step H encrypted salt dict n job t).stopFlag = true := by
  unfold crack_step crack_thread_step
  split
  · cases hpc : (job.threadData t).pc <;> simp only [hpc] <;> (repeat split) <;> simp_all
  · exact h

theorem jobInv_init : JobInv H encrypted salt dict n (crack_init dict n) := by
  refine ⟨?_, ?_⟩
  · intro t _
    simp only [WorkerInv, crack_init, true_and, le_refl]
    intro j h1 h2
    omega
  · intro h
    simp [crack_init] at h

theorem jobInv_step (job : CrackJob) (t : Nat)
    (h : JobInv H encrypted salt dict n job) :
    JobInv H encrypted salt dict n (crack_step H encrypted salt dict n job t) := by
  by_cases ht : t < n
  swap
  · unfold crack_step
    rw [if_neg ht]
    exact h
  obtain ⟨hw, hf⟩ := h
  have hwt := hw t ht
  -- the new state of the stepping worker and of the flag
  have key : WorkerInv H encrypted salt dict n
        (crack_step H encrypted salt dict n job t).stopFlag t
        ((crack_step H encrypted salt dict n job t).threadData t) ∧
      ((crack_step H encrypted salt dict n job t).stopFlag = true →
        job.stopFlag = true ∨ ∃ i, firstMatchOf H encrypted salt dict n t i ∧
          ((crack_step H encrypted salt dict n job t).threadData t).result
            = some (dict.words.getD i [])) := by
    unfold crack_step
    simp only [if_pos ht, if_true]
    unfold crack_thread_step
    unfold WorkerInv at hwt
    cases hpc : (job.threadData t).pc with
    | test i =>
      simp only [hpc] at hwt ⊢
      obtain ⟨hr, hs, hno⟩ := hwt
      by_cases hi : i < crack_thread_end dict.numWords n t
      · rw [if_pos hi]
        cases hflag : job.stopFlag with
        | true =>
          simp only [if_true]
          exact ⟨by simp [WorkerInv], fun _ => Or.inl trivial⟩
        | false =>
          simp only [Bool.false_eq_true, if_false]
          exact ⟨by simp only [WorkerInv]; exact ⟨hr, hs, hi, hno⟩, fun hc => by simp at hc⟩
      · rw [if_neg hi]
        refine ⟨?_, fun hc => Or.inl hc⟩
        simp only [WorkerInv]
        exact Or.inl ⟨trivial, fun j h1 h2 => hno j h1 (by omega)⟩
    | hash i =>
      simp only [hpc] at hwt ⊢
      obtain ⟨hr, hs, hi, hno⟩ := hwt
      by_cases hm : H (dict.words.getD i []) salt = encrypted
      · rw [if_pos hm]
        have hfm : firstMatchOf H encrypted salt dict n t i := ⟨hs, hi, hm, hno⟩
        refine ⟨?_, fun _ => Or.inr ⟨i, hfm, rfl⟩⟩
        simp only [WorkerInv]
        exact Or.inr (Or.inr ⟨i, hfm, rfl⟩)
      · rw [if_neg hm]
        refine ⟨?_, fun hc => Or.inl hc⟩
        simp only [WorkerInv]
        refine ⟨hr, by omega, ?_⟩
        intro j h1 h2
        rcases Nat.lt_or_eq_of_le (Nat.lt_succ_iff.mp h2) with h3 | h3
        · exact hno j h1 h3
        · subst h3; exact hm
    | done =>
      simp only [hpc] at hwt ⊢
      refine ⟨?_, fun hc => Or.inl hc⟩
      simp only [WorkerInv, hpc]
      exact hwt
  refine ⟨?_, ?_⟩
  · intro j hj
    by_cases hjt : j = t
    · subst hjt; exact key.1
    · rw [crack_step_other H encrypted salt dict n job t j hjt]
      exact workerInv_mono H encrypted salt dict n
        (crack_step_flag H encrypted salt dict n job t) (hw j hj)
  · intro hflag
    rcases key.2 hflag with hold | ⟨i, hfm, hres⟩
    · obtain ⟨u, i, hu, hfm, hres⟩ := hf hold
      by_cases hut : u = t
      · subst hut
        -- a finished worker does not move
        refine ⟨u, i, hu, hfm, ?_⟩
        have hwu := hw u hu
        unfold WorkerInv at hwu
        cases hpc : (job.threadData u).pc with
        | test k => simp [hpc, hres] at hwu
        | hash k => simp [hpc, hres] at hwu
        | done =>
          unfold crack_step crack_thread_step
          simp [hu, hpc, hres]
      · exact ⟨u, i, hu, hfm, by rw [crack_step_other H encrypted salt dict n job t u hut]; exact hres⟩
    · exact ⟨t, i, ht, hfm, hres⟩

theorem jobInv_run (sched : List Nat) (job : CrackJob)
    (h : JobInv H encrypted salt dict n job) :
    JobInv H encrypted salt dict n (crack_run H encrypted salt dict n job sched) := by
  induction sched generalizing job with
  | nil => exact h
  | cons t rest ih =>
    exact ih _ (jobInv_step H encrypted salt dict n job t h)

end Job

/-! ## Every worker returns -/

section Termination

variable (H : CStr → CStr → CStr) (encrypted salt : CStr) (dict : Dictionary) (n : Nat)

theorem stepsLeft_step_own (job : CrackJob) (t : Nat) (ht : t < n) :
    stepsLeft dict n t ((crack_step H encrypted salt dict n job t).threadData t)
      ≤ stepsLeft dict n t (job.threadData t) - 1 := by
  unfold crack_step
  simp only [if_pos ht, if_true]
  unfold crack_thread_step stepsLeft
  cases hpc : (job.threadData t).pc with
  | test i =>
    simp only [hpc]
    by_cases hi : i < crack_thread_end dict.numWords n t
    · rw [if_pos hi]
      cases job.stopFlag
      · simp only [Bool.false_eq_true, if_false]; omega
      · simp
    · rw [if_neg hi]; simp
  | hash i =>
    simp only [hpc]
    by_cases hm : H (dict.words.getD i []) salt = encrypted
    · rw [if_pos hm]; simp
    · rw [if_neg hm]; simp only; omega
  | done => simp [hpc]

theorem stepsLeft_step (job : CrackJob) (t u : Nat) (hu : u < n) :
    stepsLeft dict n u ((crack_step H encrypted salt dict n job t).threadData u)
      ≤ stepsLeft dict n u (job.threadData u) := by
  by_cases hut : u = t
  · subst hut
    exact le_trans (stepsLeft_step_own H encrypted salt dict n job u hu) (Nat.sub_le _ _)
  · rw [crack_step_other H encrypted salt dict n job t u hut]

theorem stepsLeft_run (sched : List Nat) (job : CrackJob) (u : Nat) (hu : u < n) :
    stepsLeft dict n u ((crack_run H encrypted salt dict n job sched).threadData u)
      ≤ stepsLeft dict n u (job.threadData u) := by
  induction sched generalizing job with
  | nil => exact le_rfl
  | cons t rest ih =>
    exact le_trans (ih _) (stepsLeft_step H encrypted salt dict n job t u hu)

theorem stepsLeft_run_replicate (k : Nat) (job : CrackJob) (t : Nat) (ht : t < n) :
    stepsLeft dict n t
        ((crack_run H encrypted salt dict n job (List.replicate k t)).threadData t)
      ≤ stepsLeft dict n t (job.threadData t) - k := by
  induction k generalizing job with
  | zero => exact le_rfl
  | succ k ih =>
    have h1 := ih (crack_step H encrypted salt dict n job t)
    have h2 := stepsLeft_step_own H encrypted salt dict n job t ht
    simp only [List.replicate_succ, crack_run, List.foldl_cons] at h1 ⊢
    omega

theorem crack_run_append (job : CrackJob) (s1 s2 : List Nat) :
    crack_run H encrypted salt dict n job (s1 ++ s2)
      = crack_run H encrypted salt dict n (crack_run H encrypted salt dict n job s1) s2 := by
  simp [crack_run, List.foldl_append]

theorem stepsLeft_init (t : Nat) (ht : t < n) :
    stepsLeft dict n t ((crack_init dict n).threadData t) ≤ 2 * dict.numWords + 1 := by
  have := slice_end_le dict.numWords n t ht
  simp only [stepsLeft, crack_init]
  omega

theorem crack_join_sched_split (M t : Nat) (ht : t < n) :
    ∃ A B, crack_join_sched M n = A ++ (List.replicate (2 * M + 2) t ++ B) := by
  obtain ⟨s, r, hsr⟩ := List.append_of_mem (List.mem_range.mpr ht)
  refine ⟨s.flatMap (fun t => List.replicate (2 * M + 2) t),
    r.flatMap (fun t => List.replicate (2 * M + 2) t), ?_⟩
  unfold crack_join_sched
  rw [hsr]
  simp

theorem pc_done_of_stepsLeft {t : Nat} {data : CrackThreadData}
    (h : stepsLeft dict n t data = 0) : data.pc = Pc.done := by
  unfold stepsLeft at h
  cases hpc : data.pc with
  | test i => simp [hpc] at h
  | hash i => simp [hpc] at h
  | done => rfl

/-- Whatever the interleaving, every worker of the job has returned once the
coordinator has joined them. -/
theorem all_done (sched : List Nat) (t : Nat) (ht : t < n) :
    ((crack_run H encrypted salt dict n (crack_init dict n)
      (sched ++ crack_join_sched dict.numWords n)).threadData t).pc = Pc.done := by
  apply pc_done_of_stepsLeft dict n (t := t)
  obtain ⟨A, B, hAB⟩ := crack_join_sched_split n dict.numWords t ht
  rw [hAB, ← List.append_assoc, crack_run_append, crack_run_append]
  have h1 := stepsLeft_run H encrypted salt dict n (sched ++ A) (crack_init dict n) t ht
  have h2 := stepsLeft_init dict n t ht
  have h3 := stepsLeft_run_replicate H encrypted salt dict n (2 * dict.numWords + 2)
    (crack_run H encrypted salt dict n (crack_init dict n) (sched ++ A)) t ht
  have h4 := stepsLeft_run H encrypted salt dict n B
    (crack_run H encrypted salt dict n
      (crack_run H encrypted salt dict n (crack_init dict n) (sched ++ A))
      (List.replicate (2 * dict.numWords + 2) t)) t ht
  omega

end Termination

/-! ## The join loop -/

theorem crack_join_some (threadData : Nat → CrackThreadData) (k i : Nat) (r : CStr)
    (h : crack_join threadData k i = some r) :
    ∃ t, i ≤ t ∧ t < i + k ∧ (threadData t).result = some r ∧ r.head? ≠ some ':' ∧
      ∀ u, i ≤ u → u < t → ∀ w, (threadData u).result = some w → w.head? = some ':' := by
  induction k generalizing i with
  | zero => simp [crack_join] at h
  | succ k ih =>
    unfold crack_join at h
    cases hres : (threadData i).result with
    | none =>
      simp only [hres] at h
      obtain ⟨t, h1, h2, h3, h4, h5⟩ := ih (i + 1) h
      refine ⟨t, by omega, by omega, h3, h4, ?_⟩
      intro u hu1 hu2 w hw
      rcases Nat.eq_or_lt_of_le hu1 with he | hl
      · subst he; rw [hres] at hw; cases hw
      · exact h5 u hl hu2 w hw
    | some w0 =>
      simp only [hres] at h
      by_cases hc : w0.head? ≠ some ':'
      · rw [if_pos hc] at h
        cases h
        exact ⟨i, le_rfl, by omega, hres, hc, fun u h1 h2 => by omega⟩
      · rw [if_neg hc] at h
        obtain ⟨t, h1, h2, h3, h4, h5⟩ := ih (i + 1) h
        refine ⟨t, by omega, by omega, h3, h4, ?_⟩
        intro u hu1 hu2 w hw
        rcases Nat.eq_or_lt_of_le hu1 with he | hl
        · subst he; rw [hres] at hw; cases hw; exact not_not.mp hc
        · exact h5 u hl hu2 w hw

theorem crack_join_none (threadData : Nat → CrackThreadData) (k i : Nat)
    (h : crack_join threadData k i = none) :
    ∀ t, i ≤ t → t < i + k → ∀ w, (threadData t).result = some w → w.head? = some ':' := by
  induction k generalizing i with
  | zero => intro t h1 h2; omega
  | succ k ih =>
    unfold crack_join at h
    intro t h1 h2 w hw
    rcases Nat.eq_or_lt_of_le h1 with he | hl
    · subst he
      rw [hw] at h
      simp only at h
      by_contra hc
      rw [if_pos hc] at h
      cases h
    · cases hres : (threadData i).result with
      | none =>
        simp only [hres] at h
        exact ih (i + 1) h t hl (by omega) w hw
      | some w0 =>
        simp only [hres] at h
        by_cases hc : w0.head? ≠ some ':'
        · rw [if_pos hc] at h; cases h
        · rw [if_neg hc] at h
          exact ih (i + 1) h t hl (by omega) w hw

/-! ## What the search answers -/

section Search

variable (H : CStr → CStr → CStr) (encrypted salt : CStr) (dict : Dictionary) (n : Nat)

theorem firstMatchOf_lt {t i : Nat} (ht : t < n)
    (h : firstMatchOf H encrypted salt dict n t i) : i < dict.words.length :=
  lt_of_lt_of_le h.2.1 (slice_end_le dict.numWords n t ht)

theorem getD_mem_words {i : Nat} (h : i < dict.words.length) :
    dict.words.getD i [] ∈ dict.words := by
  rw [List.getD_eq_getElem _ _ h]
  exact List.getElem_mem h

theorem jobInv_final (sched : List Nat) :
    JobInv H encrypted salt dict n
      (crack_run H encrypted salt dict n (crack_init dict n)
        (sched ++ crack_join_sched dict.numWords n)) :=
  jobInv_run H encrypted salt dict n _ _ (jobInv_init H encrypted salt dict n)

/-- A joined result is the first match of the slice of the worker it comes from. -/
theorem crack_join_final (sched : List Nat) (r : CStr)
    (h : crack_join (crack_run H encrypted salt dict n (crack_init dict n)
        (sched ++ crack_join_sched dict.numWords n)).threadData n 0 = some r) :
    r.head? ≠ some ':' ∧
      ∃ t i, t < n ∧ firstMatchOf H encrypted salt dict n t i ∧ r = dict.words.getD i [] := by
  obtain ⟨t, _, ht, hres, hhead, _⟩ := crack_join_some _ n 0 r h
  have ht : t < n := by omega
  refine ⟨hhead, ?_⟩
  have hw := (jobInv_final H encrypted salt dict n sched).1 t ht
  have hd := all_done H encrypted salt dict n sched t ht
  unfold WorkerInv at hw
  simp only [hd] at hw
  rcases hw with ⟨h1, _⟩ | ⟨h1, _⟩ | ⟨i, hfm, h1⟩
  · rw [hres] at h1
    cases h1
    exact absurd rfl hhead
  · rw [hres] at h1
    cases h1
  · rw [hres] at h1
    cases h1
    exact ⟨t, i, ht, hfm, rfl⟩

/-- The answer of the search is `":failed\n"` or the first match of some
worker's slice, and then it does not begin with `':'`. -/
theorem crack_search_cases (sched : List Nat) :
    crack_search H encrypted salt n dict sched = FAILED ∨
      ((crack_search H encrypted salt n dict sched).head? ≠ some ':' ∧
        ∃ t i, t < n ∧ firstMatchOf H encrypted salt dict n t i ∧
          crack_search H encrypted salt n dict sched = dict.words.getD i []) := by
  cases hj : crack_join (crack_run H encrypted salt dict n (crack_init dict n)
      (sched ++ crack_join_sched dict.numWords n)).threadData n 0 with
  | none =>
    left
    simp only [crack_search, hj]
  | some r =>
    right
    simp only [crack_search, hj]
    exact crack_join_final H encrypted salt dict n sched r hj

/-- When the search answers `":failed\n"` although a word of the dictionary
hashes to the target, a word that hashes to the target begins with `':'`. -/
theorem crack_search_failed (hn : 1 ≤ n) (sched : List Nat)
    (h : crack_search H encrypted salt n dict sched = FAILED)
    (j : Nat) (hj : j < dict.words.length) (hm : matchesAt H encrypted salt dict j) :
    ∃ i, i < dict.words.length ∧ matchesAt H encrypted salt dict i ∧
      (dict.words.getD i []).head? = some ':' := by
  have hnone : ∀ t, t < n → ∀ w,
      ((crack_run H encrypted salt dict n (crack_init dict n)
        (sched ++ crack_join_sched dict.numWords n)).threadData t).result = some w →
      w.head? = some ':' := by
    cases hjn : crack_join (crack_run H encrypted salt dict n (crack_init dict n)
        (sched ++ crack_join_sched dict.numWords n)).threadData n 0 with
    | none =>
      intro t ht w hw
      exact crack_join_none _ n 0 hjn t (Nat.zero_le _) (by omega) w hw
    | some r =>
      simp only [crack_search, hjn] at h
      have := (crack_join_final H encrypted salt dict n sched r hjn).1
      rw [h] at this
      exact absurd rfl this
  have hinv := jobInv_final H encrypted salt dict n sched
  have found : ∀ u i, u < n → firstMatchOf H encrypted salt dict n u i →
      ((crack_run H encrypted salt dict n (crack_init dict n)
        (sched ++ crack_join_sched dict.numWords n)).threadData u).result
        = some (dict.words.getD i []) →
      ∃ i, i < dict.words.length ∧ matchesAt H encrypted salt dict i ∧
        (dict.words.getD i []).head? = some ':' :=
    fun u i hu hfm hres =>
      ⟨i, firstMatchOf_lt H encrypted salt dict n hu hfm, hfm.2.2.1, hnone u hu _ hres⟩
  obtain ⟨t, ht, hs, he⟩ := slice_covers dict.numWords n j hn hj
  have hw := hinv.1 t ht
  have hd := all_done H encrypted salt dict n sched t ht
  unfold WorkerInv at hw
  simp only [hd] at hw
  rcases hw with ⟨_, hno⟩ | ⟨_, hflag⟩ | ⟨i, hfm, hres⟩
  · exact absurd hm (hno j hs he)
  · obtain ⟨u, i, hu, hfm, hres⟩ := hinv.2 hflag
    exact found u i hu hfm hres
  · exact found t i ht hfm hres

/-- When the search answers `":failed\n"` although a word of the dictionary
hashes to the target, the first match of the slice of some worker begins with
`':'`. -/
theorem crack_search_failed_first (hn : 1 ≤ n) (sched : List Nat)
    (h : crack_search H encrypted salt n dict sched = FAILED)
    (j : Nat) (hj : j < dict.words.length) (hm : matchesAt H encrypted salt dict j) :
    ∃ u i, u < n ∧ firstMatchOf H encrypted salt dict n u i ∧
      (dict.words.getD i []).head? = some ':' := by
  have hnone : ∀ t, t < n → ∀ w,
      ((crack_run H encrypted salt dict n (crack_init dict n)
        (sched ++ crack_join_sched dict.numWords n)).threadData t).result = some w →
      w.head? = some ':' := by
    cases hjn : crack_join (crack_run H encrypted salt dict n (crack_init dict n)
        (sched ++ crack_join_sched dict.numWords n)).threadData n 0 with
    | none =>
      intro t ht w hw
      exact crack_join_none _ n 0 hjn t (Nat.zero_le _) (by omega) w hw
    | some r =>
      simp only [crack_search, hjn] at h
      have := (crack_join_final H encrypted salt dict n sched r hjn).1
      rw [h] at this
      exact absurd rfl this
  have hinv := jobInv_final H encrypted salt dict n sched
  obtain ⟨t, ht, hs, he⟩ := slice_covers dict.numWords n j hn hj
  have hw := hinv.1 t ht
  have hd := all_done H encrypted salt dict n sched t ht
  unfold WorkerInv at hw
  simp only [hd] at hw
  rcases hw with ⟨_, hno⟩ | ⟨_, hflag⟩ | ⟨i, hfm, hres⟩
  · exact absurd hm (hno j hs he)
  · obtain ⟨u, i, hu, hfm, hres⟩ := hinv.2 hflag
    exact ⟨u, i, hu, hfm, hnone u hu _ hres⟩
  · exact ⟨t, i, ht, hfm, hnone t ht _ hres⟩

end Search

/-! ## The stand-in hash -/

theorem toyHash_take (word salt : CStr) : toyHash word salt = toyHash (word.take 8) salt := by
  simp [toyHash, List.take_take]

theorem toyHash_length (word salt : CStr) (hs : salt.length = 2) :
    (toyHash word salt).length = 13 := by
  simp [toyHash, hs]

theorem toyHash_salt (word salt : CStr) (hs : salt.length = 2) :
    (toyHash word salt).take 2 = salt := by
  unfold toyHash
  rw [List.take_append_of_le_length (by simp [hs])]
  rw [List.take_take]
  simp [← hs]

theorem toyChar_mem (c : Char) : toyChar c ∈ PLAINTEXT_CHARS := by
  unfold toyChar
  split
  · rename_i h
    simpa using h
  · decide

theorem toyHash_alphabet (word salt : CStr) (hall : ∀ c ∈ salt, c ∈ PLAINTEXT_CHARS) :
    ∀ c ∈ toyHash word salt, c ∈ PLAINTEXT_CHARS := by
  intro c hc
  unfold toyHash at hc
  rcases List.mem_append.mp hc with h | h
  · exact hall c (List.mem_of_mem_take h)
  · rcases List.mem_append.mp (List.mem_of_mem_take h) with h | h
    · obtain ⟨d, _, rfl⟩ := List.mem_map.mp h
      exact toyChar_mem d
    · rw [(List.mem_replicate.mp h).2]
      decide

theorem newline_not_plaintext : '\n' ∉ PLAINTEXT_CHARS := by decide

/-! ## The salt alphabet -/

set_option maxRecDepth 100000 in
theorem plaintext_chars_salt : ∀ c ∈ PLAINTEXT_CHARS, saltAlphabet c = true := by decide

set_option maxRecDepth 100000 in
theorem salt_plaintext_nat : ∀ k, k < 123 →
    ((65 ≤ k ∧ k ≤ 90) ∨ (97 ≤ k ∧ k ≤ 122) ∨ (48 ≤ k ∧ k ≤ 57) ∨ k = 46 ∨ k = 47) →
    Char.ofNat k ∈ PLAINTEXT_CHARS := by decide

/-- The characters of `PLAINTEXT_CHARS` are exactly those of `[A-Za-z0-9./]`. -/
theorem mem_PLAINTEXT_CHARS_iff (c : Char) : c ∈ PLAINTEXT_CHARS ↔ saltAlphabet c = true := by
  constructor
  · exact plaintext_chars_salt c
  · intro h
    have hc : Char.ofNat c.toNat = c := Char.ofNat_toNat c
    rw [← hc]
    unfold saltAlphabet at h
    simp only [Bool.or_eq_true, Bool.and_eq_true, decide_eq_true_eq, beq_iff_eq] at h
    apply salt_plaintext_nat
    · omega
    · omega

theorem saltAlphabet_false_iff (c : Char) : saltAlphabet c = false ↔ c ∉ PLAINTEXT_CHARS := by
  rw [mem_PLAINTEXT_CHARS_iff]
  simp

/-! ## Splitting a request line -/

theorem split_fields_last (c : Char) (k : Nat) (hk : k ≤ 1) (r : CStr) :
    split_fields c false k r = [r] := by
  induction r with
  | nil => rfl
  | cons x xs ih =>
    have hcond : ¬ (x = c ∧ (false = true ∨ 1 < k)) := by
      rintro ⟨_, h | h⟩
      · cases h
      · omega
    simp only [split_fields, if_neg hcond, ih]

theorem split_fields_nosep (c : Char) (k : Nat) (a : CStr) (ha : c ∉ a) :
    split_fields c false k a = [a] := by
  induction a with
  | nil => rfl
  | cons x xs ih =>
    have hx : x ≠ c := fun h => ha (by simp [h])
    have hxs : c ∉ xs := fun h => ha (List.mem_cons_of_mem _ h)
    have hcond : ¬ (x = c ∧ (false = true ∨ 1 < k)) := fun h => hx h.1
    simp only [split_fields, if_neg hcond, ih hxs]

theorem split_fields_first (c : Char) (k : Nat) (hk : 1 < k) (a rest : CStr) (ha : c ∉ a) :
    split_fields c false k (a ++ c :: rest) = a :: split_fields c false (k - 1) rest := by
  induction a with
  | nil =>
    have hcond : c = c ∧ (false = true ∨ 1 < k) := ⟨rfl, Or.inr hk⟩
    rw [List.nil_append, split_fields, if_pos hcond]
  | cons x xs ih =>
    have hx : x ≠ c := fun h => ha (by simp [h])
    have hxs : c ∉ xs := fun h => ha (List.mem_cons_of_mem _ h)
    have hcond : ¬ (x = c ∧ (false = true ∨ 1 < k)) := fun h => hx h.1
    rw [List.cons_append, split_fields, if_neg hcond, ih hxs]

/-- A line `a0 a1 rest` whose first two fields hold no space splits into the
three fields `a0`, `a1` and `rest`. -/
theorem split_by_char_three (a0 a1 rest : CStr) (h0 : ' ' ∉ a0) (h1 : ' ' ∉ a1) :
    split_by_char (a0 ++ ' ' :: (a1 ++ ' ' :: rest)) ' ' MAX_COMMAND_ARGS = [a0, a1, rest] := by
  unfold split_by_char MAX_COMMAND_ARGS
  have e : ((3 : Nat) == 0) = false := rfl
  rw [e, split_fields_first ' ' 3 (by omega) a0 _ h0,
    split_fields_first ' ' 2 (by omega) a1 _ h1, split_fields_last ' ' 1 le_rfl]

theorem splitOn_nosep (a : CStr) (ha : ' ' ∉ a) : a.splitOn ' ' = [a] := by
  unfold List.splitOn
  apply List.splitOnP_eq_single
  intro x hx hc
  have : x = ' ' := by simpa using hc
  exact ha (this ▸ hx)

theorem splitOn_first (a rest : CStr) (ha : ' ' ∉ a) :
    (a ++ ' ' :: rest).splitOn ' ' = a :: rest.splitOn ' ' := by
  unfold List.splitOn
  apply List.splitOnP_first
  · intro x hx hc
    have : x = ' ' := by simpa using hc
    exact ha (this ▸ hx)
  · simp

theorem splitOn_ne_nil (a : CStr) : a.splitOn ' ' ≠ [] := List.splitOnP_ne_nil _ _

/-- The shapes of a request line: one field (no space), two fields, or three
fields, in which case the line has exactly three tokens, or more than three and
the third field of `split_by_char` keeps a space. -/
theorem request_shape (command : CStr) :
    (' ' ∉ command ∧ (command.splitOn ' ').length < 3 ∧
        split_by_char command ' ' MAX_COMMAND_ARGS = [command]) ∨
      (∃ a0 a1, ' ' ∉ a0 ∧ ' ' ∉ a1 ∧ command = a0 ++ ' ' :: a1 ∧
        (command.splitOn ' ').length < 3 ∧
        split_by_char command ' ' MAX_COMMAND_ARGS = [a0, a1]) ∨
      ∃ a0 a1 rest, ' ' ∉ a0 ∧ ' ' ∉ a1 ∧
        command = a0 ++ ' ' :: (a1 ++ ' ' :: rest) ∧
        split_by_char command ' ' MAX_COMMAND_ARGS = [a0, a1, rest] ∧
        (command.splitOn ' ').head? = some a0 ∧
        ((' ' ∉ rest ∧ command.splitOn ' ' = [a0, a1, rest]) ∨
          (' ' ∈ rest ∧ 3 < (command.splitOn ' ').length)) := by
  by_cases hc : ' ' ∈ command
  swap
  · left
    rw [splitOn_nosep command hc]
    unfold split_by_char
    rw [show ((MAX_COMMAND_ARGS == 0) = false) from rfl, split_fields_nosep ' ' _ command hc]
    exact ⟨hc, by simp, rfl⟩
  obtain ⟨a0, r1, rfl, h0⟩ := List.eq_append_cons_of_mem hc
  by_cases hc1 : ' ' ∈ r1
  swap
  · right
    left
    refine ⟨a0, r1, h0, hc1, rfl, ?_, ?_⟩
    · rw [splitOn_first a0 r1 h0, splitOn_nosep r1 hc1]
      simp
    · unfold split_by_char MAX_COMMAND_ARGS
      rw [show (((3 : Nat) == 0) = false) from rfl,
        split_fields_first ' ' 3 (by omega) a0 r1 h0, split_fields_nosep ' ' _ r1 hc1]
  obtain ⟨a1, rest, rfl, h1⟩ := List.eq_append_cons_of_mem hc1
  right
  right
  refine ⟨a0, a1, rest, h0, h1, rfl, split_by_char_three a0 a1 rest h0 h1, ?_, ?_⟩
  · rw [splitOn_first a0 _ h0]; rfl
  · rw [splitOn_first a0 _ h0, splitOn_first a1 _ h1]
    by_cases hc2 : ' ' ∈ rest
    · right
      refine ⟨hc2, ?_⟩
      obtain ⟨a2, r3, rfl, h2⟩ := List.eq_append_cons_of_mem hc2
      rw [splitOn_first a2 _ h2]
      have := List.length_pos.mpr (splitOn_ne_nil r3)
      simp only [List.length_cons]
      omega
    · left
      exact ⟨hc2, by rw [splitOn_nosep rest hc2]⟩

/-! ## strspn, is_digits, the numerals -/

theorem strspn_le (s accept : CStr) : strspn s accept ≤ s.length := by
  induction s with
  | nil => simp [strspn]
  | cons x xs ih =>
    unfold strspn
    split
    · simp only [List.length_cons]; omega
    · exact Nat.zero_le _

theorem strspn_eq_length_iff (s accept : CStr) :
    strspn s accept = s.length ↔ ∀ c ∈ s, c ∈ accept := by
  induction s with
  | nil => simp [strspn]
  | cons x xs ih =>
    unfold strspn
    by_cases hx : accept.contains x = true
    · rw [if_pos hx]
      have hx2 : x ∈ accept := by simpa using hx
      simp only [List.length_cons, List.mem_cons, forall_eq_or_imp]
      constructor
      · intro h
        exact ⟨hx2, ih.mp (by omega)⟩
      · intro h
        have := ih.mpr h.2
        omega
    · rw [if_neg hx]
      have hx2 : x ∉ accept := by simpa using hx
      simp only [List.length_cons, List.mem_cons, forall_eq_or_imp]
      constructor
      · intro h; omega
      · intro h; exact absurd h.1 hx2

theorem is_digits_eq_true_iff (s : CStr) :
    is_digits s = true ↔ s ≠ [] ∧ ∀ c ∈ s, isdigit c = true := by
  unfold is_digits strlen
  cases s with
  | nil => simp
  | cons x xs => simp

theorem num_places_MAX_THREADS : num_places MAX_THREADS = 2 := by decide

theorem invalid_ne_failed : INVALID ≠ FAILED := by decide

theorem head_INVALID : INVALID.head? = some ':' := rfl

theorem head_FAILED : FAILED.head? = some ':' := rfl

theorem colon_not_plaintext : ':' ∉ PLAINTEXT_CHARS := by decide

theorem space_not_plaintext : ' ' ∉ PLAINTEXT_CHARS := by decide

theorem space_not_digit : isdigit ' ' = false := by decide

/-! ## The branches of do_command -/

section Command

variable (H : CStr → CStr → CStr) (dict : Dictionary) (sched : List Nat)
  (beyond : Option CStr)

/-- A line of one field: `arguments[2]` is read past the array.  The answer is
`":invalid\n"`, unless the line is `crack` or `crypt` and the slot read is not
NULL, where the answer may be undefined. -/
theorem do_command_one_field (command : CStr)
    (h : split_by_char command ' ' MAX_COMMAND_ARGS = [command]) :
    do_command H command dict sched beyond = some INVALID ∨
      (do_command H command dict sched beyond = none ∧
        (command = ['c', 'r', 'a', 'c', 'k'] ∨ command = ['c', 'r', 'y', 'p', 't']) ∧
        beyond ≠ none) := by
  unfold do_command
  simp only [h, List.length_singleton, if_true, List.getD_cons_zero]
  cases beyond with
  | none => exact Or.inl rfl
  | some g =>
    simp only
    by_cases hk : command = ['c', 'r', 'a', 'c', 'k']
    · rw [if_pos hk]
      split
      · exact Or.inl rfl
      · split
        · exact Or.inl rfl
        · exact Or.inr ⟨rfl, Or.inl hk, by simp⟩
    · rw [if_neg hk]
      by_cases hy : command = ['c', 'r', 'y', 'p', 't']
      · rw [if_pos hy]
        split
        · exact Or.inl rfl
        · split
          · exact Or.inl rfl
          · exact Or.inr ⟨rfl, Or.inr hy, by simp⟩
      · rw [if_neg hy]
        exact Or.inl rfl

theorem do_command_two_fields (command a0 a1 : CStr)
    (h : split_by_char command ' ' MAX_COMMAND_ARGS = [a0, a1]) :
    do_command H command dict sched beyond = some INVALID := by
  unfold do_command
  simp [h]

theorem do_command_crack_fields (command a1 a2 : CStr)
    (h : split_by_char command ' ' MAX_COMMAND_ARGS = [['c', 'r', 'a', 'c', 'k'], a1, a2]) :
    do_command H command dict sched beyond =
      some (if 2 < a2.length ∨ is_digits a2 = false then INVALID
        else if 50 < atoi a2 ∨ atoi a2 ≤ 0 then INVALID
        else crack H a1 (atoi a2).toNat dict sched) := by
  unfold do_command
  have np : num_places 50 = 2 := by decide
  have hl : ¬ ([['c', 'r', 'a', 'c', 'k'], a1, a2].length = 1) := by simp
  simp only [h, hl, if_false, List.get?, List.getD_cons_zero, if_true,
    strlen, MAX_THREADS, np]
  by_cases h1 : 2 < a2.length ∨ is_digits a2 = false
  · rw [if_pos h1, if_pos]
    rcases h1 with h1 | h1
    · simp [h1]
    · simp [h1]
  · rw [if_neg h1, if_neg]
    · by_cases h2 : 50 < atoi a2 ∨ atoi a2 ≤ 0
      · rw [if_pos h2, if_pos]
        rcases h2 with h2 | h2
        · simp [h2]
        · simp [h2]
      · rw [if_neg h2, if_neg]
        push_neg at h2
        simp only [Nat.cast_ofNat, Bool.or_eq_true, decide_eq_true_eq, not_or, not_lt, not_le]
        exact ⟨h2.1, h2.2⟩
    · push_neg at h1
      simp only [gt_iff_lt, Bool.or_eq_true, decide_eq_true_eq, Bool.not_eq_true', not_or, not_lt]
      exact ⟨h1.1, by simpa using h1.2⟩

theorem do_command_crypt_fields (command a1 a2 : CStr)
    (h : split_by_char command ' ' MAX_COMMAND_ARGS = [['c', 'r', 'y', 'p', 't'], a1, a2]) :
    do_command H command dict sched beyond =
      some (if a2.length ≠ 2 then INVALID
        else if strspn a2 PLAINTEXT_CHARS ≠ 2 then INVALID
        else H a1 a2) := by
  unfold do_command
  have hne : ¬ (['c', 'r', 'y', 'p', 't'] = ['c', 'r', 'a', 'c', 'k']) := by decide
  have hl : ¬ ([['c', 'r', 'y', 'p', 't'], a1, a2].length = 1) := by simp
  simp only [h, hl, if_false, List.get?, List.getD_cons_zero, if_true, if_neg hne,
    strlen]
  by_cases c1 : a2.length ≠ 2
  · rw [if_pos c1, if_pos c1]
  · rw [if_neg c1, if_neg c1]
    by_cases c2 : strspn a2 PLAINTEXT_CHARS ≠ 2
    · rw [if_pos c2, if_pos c2]
    · rw [if_neg c2, if_neg c2]

theorem do_command_other_fields (command a0 a1 a2 : CStr)
    (h : split_by_char command ' ' MAX_COMMAND_ARGS = [a0, a1, a2])
    (hk : a0 ≠ ['c', 'r', 'a', 'c', 'k']) (hy : a0 ≠ ['c', 'r', 'y', 'p', 't']) :
    do_command H command dict sched beyond = some INVALID := by
  unfold do_command
  have hl : ¬ ([a0, a1, a2].length = 1) := by simp
  simp only [h, hl, if_false, List.get?, List.getD_cons_zero, if_neg hk, if_neg hy]

end Command

/-! ## The answers of crack -/

section Crack

variable (H : CStr → CStr → CStr) (dict : Dictionary)

theorem crack_valid (encrypted : CStr) (n : Nat) (sched : List Nat)
    (hlen : encrypted.length = 13) (hsalt : strspn (encrypted.take 2) PLAINTEXT_CHARS = 2) :
    crack H encrypted n dict sched
      = crack_search H encrypted (encrypted.take 2) n dict sched := by
  unfold crack strlen CRYPT_LEN SALT_LENGTH
  simp only [hlen, hsalt, ne_eq, not_true_eq_false, if_false]

/-- The answer of crack is `":invalid\n"`, `":failed\n"`, or a word that does
not begin with `':'` and is the first match of some worker's slice. -/
theorem crack_cases (encrypted : CStr) (n : Nat) (sched : List Nat) :
    crack H encrypted n dict sched = INVALID ∨
      (encrypted.length = 13 ∧ strspn (encrypted.take 2) PLAINTEXT_CHARS = 2 ∧
        (crack H encrypted n dict sched = FAILED ∨
          ((crack H encrypted n dict sched).head? ≠ some ':' ∧
            ∃ t i, t < n ∧ firstMatchOf H encrypted (encrypted.take 2) dict n t i ∧
              crack H encrypted n dict sched = dict.words.getD i []))) := by
  by_cases hlen : encrypted.length = 13
  swap
  · left
    unfold crack strlen CRYPT_LEN
    rw [if_pos hlen]
  by_cases hsalt : strspn (encrypted.take 2) PLAINTEXT_CHARS = 2
  swap
  · left
    unfold crack strlen CRYPT_LEN SALT_LENGTH
    simp only [hlen, ne_eq, not_true_eq_false, if_false]
    rw [if_pos hsalt]
  right
  rw [crack_valid H dict encrypted n sched hlen hsalt]
  exact ⟨hlen, hsalt, crack_search_cases H encrypted (encrypted.take 2) dict n sched⟩

theorem crack_word_of_cases (encrypted : CStr) (n : Nat) (sched : List Nat)
    (hinv : crack H encrypted n dict sched ≠ INVALID)
    (hfail : crack H encrypted n dict sched ≠ FAILED) :
    (crack H encrypted n dict sched).head? ≠ some ':' ∧
      crack H encrypted n dict sched ∈ dict.words ∧
      H (crack H encrypted n dict sched) (encrypted.take 2) = encrypted := by
  rcases crack_cases H dict encrypted n sched with h | ⟨_, _, h | ⟨hhead, t, i, ht, hfm, hw⟩⟩
  · exact absurd h hinv
  · exact absurd h hfail
  · refine ⟨hhead, ?_, ?_⟩
    · rw [hw]
      exact getD_mem_words dict (firstMatchOf_lt H encrypted _ dict n ht hfm)
    · rw [hw]
      exact hfm.2.2.1

theorem crack_failed_cases (encrypted : CStr) (n : Nat) (hn : 1 ≤ n) (sched : List Nat)
    (hfail : crack H encrypted n dict sched = FAILED)
    (W : CStr) (hW : W ∈ dict.words) (hm : H W (encrypted.take 2) = encrypted) :
    ∃ V ∈ dict.words, H V (encrypted.take 2) = encrypted ∧ V.head? = some ':' := by
  rcases crack_cases H dict encrypted n sched with h | ⟨hlen, hsalt, _⟩
  · rw [hfail] at h
    exact absurd h.symm invalid_ne_failed
  rw [crack_valid H dict encrypted n sched hlen hsalt] at hfail
  obtain ⟨j, hj, hjW⟩ := List.getElem_of_mem hW
  have hmj : matchesAt H encrypted (encrypted.take 2) dict j := by
    unfold matchesAt
    rw [List.getD_eq_getElem _ _ hj, hjW]
    exact hm
  obtain ⟨i, hi, hmi, hhead⟩ :=
    crack_search_failed H encrypted (encrypted.take 2) dict n hn sched hfail j hj hmj
  exact ⟨dict.words.getD i [], getD_mem_words dict hi, hmi, hhead⟩

theorem crack_failed_first (encrypted : CStr) (n : Nat) (hn : 1 ≤ n) (sched : List Nat)
    (hfail : crack H encrypted n dict sched = FAILED)
    (j : Nat) (hj : j < dict.words.length)
    (hm : matchesAt H encrypted (encrypted.take 2) dict j) :
    ∃ u i, u < n ∧ firstMatchOf H encrypted (encrypted.take 2) dict n u i ∧
      (dict.words.getD i []).head? = some ':' := by
  rcases crack_cases H dict encrypted n sched with h | ⟨hlen, hsalt, _⟩
  · rw [hfail] at h
    exact absurd h.symm invalid_ne_failed
  rw [crack_valid H dict encrypted n sched hlen hsalt] at hfail
  exact crack_search_failed_first H encrypted (encrypted.take 2) dict n hn sched hfail j hj hm

end Crack


theorem crack_ne_invalid (H : CStr → CStr → CStr) (dict : Dictionary) (encrypted : CStr)
    (n : Nat) (sched : List Nat) (hlen : encrypted.length = 13)
    (hsalt : strspn (encrypted.take 2) PLAINTEXT_CHARS = 2) :
    crack H encrypted n dict sched ≠ INVALID := by
  intro hs
  rw [crack_valid H dict encrypted n sched hlen hsalt] at hs
  rcases crack_search_cases H encrypted (encrypted.take 2) dict n sched with h | ⟨h, _⟩
  · rw [hs] at h
    exact invalid_ne_failed h
  · rw [hs] at h
    exact h rfl

set_option maxRecDepth 100000 in
theorem numeral_ok : ∀ n, n < 51 → 1 ≤ n →
    (numeral n).length ≤ 2 ∧ is_digits (numeral n) = true ∧ atoi (numeral n) = (n : Int) := by
  decide

/-- The response of do_command is `":invalid\n"`, `":failed\n"`, or a payload
that does not begin with `':'`: the hash of a crypt request with a valid
salt, or a dictionary word that hashes to the target of a crack request.  It
is undefined only for the lines `crack` and `crypt` when the slot read past the
array is not NULL. -/
theorem do_command_cases (H : CStr → CStr → CStr)
    (hH : ∀ p s : CStr, s.length = 2 → (∀ c ∈ s, c ∈ PLAINTEXT_CHARS) → (H p s).take 2 = s)
    (command : CStr) (dict : Dictionary) (sched : List Nat) (beyond : Option CStr) :
    (do_command H command dict sched beyond = none ∧
        (command = ['c', 'r', 'a', 'c', 'k'] ∨ command = ['c', 'r', 'y', 'p', 't']) ∧
        beyond ≠ none) ∨
      ∃ r, do_command H command dict sched beyond = some r ∧
        (r = INVALID ∨ r = FAILED ∨
          (r.head? ≠ some ':' ∧
            ∃ a1 a2,
              (split_by_char command ' ' MAX_COMMAND_ARGS = [['c', 'r', 'y', 'p', 't'], a1, a2] ∧
                a2.length = 2 ∧ (∀ c ∈ a2, c ∈ PLAINTEXT_CHARS) ∧ r = H a1 a2) ∨
              (split_by_char command ' ' MAX_COMMAND_ARGS = [['c', 'r', 'a', 'c', 'k'], a1, a2] ∧
                r ∈ dict.words ∧ H r (a1.take 2) = a1))) := by
  rcases request_shape command with ⟨_, _, hone⟩ | ⟨a0, a1, _, _, _, _, htwo⟩ |
    ⟨a0, a1, rest, _, _, _, hsplit, _, _⟩
  · rcases do_command_one_field H dict sched beyond command hone with h | h
    · exact Or.inr ⟨INVALID, h, Or.inl rfl⟩
    · exact Or.inl h
  · exact Or.inr ⟨INVALID, do_command_two_fields H dict sched beyond command a0 a1 htwo,
      Or.inl rfl⟩
  right
  by_cases hk : a0 = ['c', 'r', 'a', 'c', 'k']
  · subst hk
    have hcmd := do_command_crack_fields H dict sched beyond command a1 rest hsplit
    by_cases c1 : 2 < rest.length ∨ is_digits rest = false
    · rw [if_pos c1] at hcmd
      exact ⟨INVALID, hcmd, Or.inl rfl⟩
    rw [if_neg c1] at hcmd
    by_cases c2 : 50 < atoi rest ∨ atoi rest ≤ 0
    · rw [if_pos c2] at hcmd
      exact ⟨INVALID, hcmd, Or.inl rfl⟩
    rw [if_neg c2] at hcmd
    refine ⟨_, hcmd, ?_⟩
    by_cases hi : crack H a1 (atoi rest).toNat dict sched = INVALID
    · exact Or.inl hi
    by_cases hf : crack H a1 (atoi rest).toNat dict sched = FAILED
    · exact Or.inr (Or.inl hf)
    obtain ⟨hhead, hmem, hm⟩ := crack_word_of_cases H dict a1 _ sched hi hf
    exact Or.inr (Or.inr ⟨hhead, a1, rest, Or.inr ⟨hsplit, hmem, hm⟩⟩)
  by_cases hy : a0 = ['c', 'r', 'y', 'p', 't']
  · subst hy
    have hcmd := do_command_crypt_fields H dict sched beyond command a1 rest hsplit
    by_cases hl : rest.length ≠ 2
    · rw [if_pos hl] at hcmd
      exact ⟨INVALID, hcmd, Or.inl rfl⟩
    rw [if_neg hl] at hcmd
    by_cases hs : strspn rest PLAINTEXT_CHARS ≠ 2
    · rw [if_pos hs] at hcmd
      exact ⟨INVALID, hcmd, Or.inl rfl⟩
    rw [if_neg hs] at hcmd
    have hl2 : rest.length = 2 := not_not.mp hl
    have hall := (strspn_eq_length_iff rest PLAINTEXT_CHARS).mp
      ((not_not.mp hs).trans hl2.symm)
    refine ⟨_, hcmd, Or.inr (Or.inr ⟨?_, a1, rest, Or.inl ⟨hsplit, hl2, hall, rfl⟩⟩)⟩
    -- the ciphertext begins with the first salt character, which is not a colon
    intro hcolon
    have hsalt := hH a1 rest hl2 hall
    match rest, hl2, hall, hsalt with
    | [x, y], _, hall, hsalt =>
      have hx : x ∈ PLAINTEXT_CHARS := hall x (by simp)
      cases hh : H a1 [x, y] with
      | nil => rw [hh] at hcolon; cases hcolon
      | cons z zs =>
        rw [hh] at hcolon hsalt
        simp only [List.head?_cons, Option.some.injEq] at hcolon
        simp only [List.take_succ_cons, List.cons.injEq] at hsalt
        rw [← hsalt.1, hcolon] at hx
        exact colon_not_plaintext hx
  · exact ⟨INVALID, do_command_other_fields H dict sched beyond command a0 a1 rest hsplit hk hy,
      Or.inl rfl⟩

/-! ## The claims -/

/-- C1 as stated fails.  With the stand-in hash, which is deterministic, ignores
the characters past the eighth and gives 13 characters that begin with the
salt: the dictionary word `:abc` is encrypted by `crypt :abc zz`, yet
`crack` of that ciphertext answers `":failed\n"`; and the dictionary word
`a b`, which holds a space, is not encrypted at all, `crypt a b zz` being
answered `":invalid\n"`. -/
theorem crypt_crack_round_trip_counterexample :
    (∀ w t : CStr, toyHash w t = toyHash (w.take 8) t) ∧
      (∀ w t : CStr, t.length = 2 → (toyHash w t).length = 13 ∧ (toyHash w t).take 2 = t) ∧
      ":abc".toList.take 8 ∈ [":abc".toList] ∧
      do_command toyHash "crypt :abc zz".toList ⟨[":abc".toList]⟩ [] none
        = some "zz.abc.......".toList ∧
      do_command toyHash "crack zz.abc....... 1".toList ⟨[":abc".toList]⟩ [] none
        = some FAILED ∧
      "a b".toList.take 8 ∈ ["a b".toList] ∧
      do_command toyHash "crypt a b zz".toList ⟨["a b".toList]⟩ [] none = some INVALID :=
  ⟨toyHash_take, fun w t ht => ⟨toyHash_length w t ht, toyHash_salt w t ht⟩,
    by decide, by decide, by decide, by decide, by decide⟩

/-- C1, amended. Round trip of crypt and crack: let `H` ignore the characters
past the eighth and, for a valid salt, output 13 characters that begin with the
salt and hold no space.  For every plaintext `p` without a space, every valid
salt `s` and every `n` in `[1, 50]`, if `p` truncated to 8 characters is a word
of the dictionary and no word of the dictionary with the same hash begins with
`':'`, then do_command answers `crypt p s` with `c = H p s` and, under every
interleaving of the workers, answers `crack c n` with a word `q` of the
dictionary such that `H q s = c` (whatever lies past the arrays of the fields,
both lines having three fields). -/
theorem crypt_crack_round_trip (H : CStr → CStr → CStr) (dict : Dictionary)
    (p s : CStr) (n : Nat) (sched1 sched2 : List Nat) (beyond1 beyond2 : Option CStr)
    (hH8 : ∀ w t : CStr, H w t = H (w.take 8) t)
    (hH13 : ∀ w t : CStr, t.length = 2 → (∀ c ∈ t, c ∈ PLAINTEXT_CHARS) →
      (H w t).length = 13 ∧ (H w t).take 2 = t ∧ ' ' ∉ H w t)
    (hp : ' ' ∉ p) (hs : s.length = 2) (hsalt : ∀ c ∈ s, c ∈ PLAINTEXT_CHARS)
    (hn1 : 1 ≤ n) (hn50 : n ≤ 50) (hmem : p.take 8 ∈ dict.words)
    (hcolon : ∀ w ∈ dict.words, H w s = H p s → w.head? ≠ some ':') :
    do_command H ("crypt".toList ++ ' ' :: (p ++ ' ' :: s)) dict sched1 beyond1
        = some (H p s) ∧
      ∃ q ∈ dict.words,
        do_command H ("crack".toList ++ ' ' :: (H p s ++ ' ' :: numeral n)) dict sched2 beyond2
            = some q ∧
          H q s = H p s := by
  have ek : "crack".toList = ['c', 'r', 'a', 'c', 'k'] := rfl
  have ey : "crypt".toList = ['c', 'r', 'y', 'p', 't'] := rfl
  obtain ⟨hlen, htake, hspace⟩ := hH13 p s hs hsalt
  have hspn : strspn s PLAINTEXT_CHARS = 2 := ((strspn_eq_length_iff _ _).mpr hsalt).trans hs
  constructor
  · rw [ey, do_command_crypt_fields H dict sched1 beyond1 _ p s
      (split_by_char_three _ p s (by decide) hp),
      if_neg (not_not.mpr hs), if_neg (not_not.mpr hspn)]
  · obtain ⟨hnl, hnd, hnv⟩ := numeral_ok n (by omega) hn1
    rw [ek, do_command_crack_fields H dict sched2 beyond2 _ (H p s) (numeral n)
      (split_by_char_three _ (H p s) (numeral n) (by decide) hspace),
      if_neg (by rw [hnd]; simp; omega), if_neg (by rw [hnv]; omega), hnv, Int.toNat_ofNat]
    have hspn2 : strspn ((H p s).take 2) PLAINTEXT_CHARS = 2 := by rw [htake]; exact hspn
    have hinv := crack_ne_invalid H dict (H p s) n sched2 hlen hspn2
    have hfail : crack H (H p s) n dict sched2 ≠ FAILED := by
      intro hf
      obtain ⟨V, hV, hmV, hhead⟩ := crack_failed_cases H dict (H p s) n hn1 sched2 hf
        (p.take 8) hmem (by rw [htake, ← hH8])
      rw [htake] at hmV
      exact hcolon V hV hmV hhead
    obtain ⟨_, hm, he⟩ := crack_word_of_cases H dict (H p s) n sched2 hinv hfail
    rw [htake] at he
    exact ⟨_, hm, rfl, he⟩

/-- Witness of C1 amended: `crypt hello ab`, then `crack` of the ciphertext
with four threads. -/
theorem crypt_crack_round_trip_witness :
    do_command toyHash ("crypt".toList ++ ' ' :: ("hello".toList ++ ' ' :: "ab".toList))
        ⟨["hello".toList, "world".toList, "secret".toList, "abc".toList]⟩ [] none
        = some (toyHash "hello".toList "ab".toList) ∧
      ∃ q ∈ ["hello".toList, "world".toList, "secret".toList, "abc".toList],
        do_command toyHash
          ("crack".toList ++ ' ' :: (toyHash "hello".toList "ab".toList ++ ' ' :: numeral 4))
          ⟨["hello".toList, "world".toList, "secret".toList, "abc".toList]⟩ [3, 1, 1] none
            = some q ∧
          toyHash q "ab".toList = toyHash "hello".toList "ab".toList :=
  crypt_crack_round_trip toyHash
    ⟨["hello".toList, "world".toList, "secret".toList, "abc".toList]⟩
    "hello".toList "ab".toList 4 [] [3, 1, 1] none none toyHash_take
    (fun w t ht hall => ⟨toyHash_length w t ht, toyHash_salt w t ht,
      fun h => space_not_plaintext (toyHash_alphabet w t hall _ h)⟩)
    (by decide) (by decide) (by decide) (by decide) (by decide) (by decide) (by decide)

/-- C2. Soundness of crack: whatever the dictionary, the target, the thread
count and the interleaving of the workers, a result of crack other than
`":invalid\n"` and `":failed\n"` is a word of the dictionary whose hash under
the salt (the first two characters of the target) equals the target. -/
theorem crack_sound (H : CStr → CStr → CStr) (dict : Dictionary) (encrypted : CStr)
    (numThreads : Nat) (sched : List Nat)
    (hinv : crack H encrypted numThreads dict sched ≠ INVALID)
    (hfail : crack H encrypted numThreads dict sched ≠ FAILED) :
    crack H encrypted numThreads dict sched ∈ dict.words ∧
      H (crack H encrypted numThreads dict sched) (encrypted.take 2) = encrypted :=
  (crack_word_of_cases H dict encrypted numThreads sched hinv hfail).2

/-- Witness of C2: cracking the hash of `hello` with four threads. -/
theorem crack_sound_witness :
    crack toyHash "abhello......".toList 4 ⟨["a".toList, "hello".toList, "world".toList]⟩ [2, 0, 1]
        ∈ ["a".toList, "hello".toList, "world".toList] ∧
      toyHash (crack toyHash "abhello......".toList 4
          ⟨["a".toList, "hello".toList, "world".toList]⟩ [2, 0, 1]) ("abhello......".toList.take 2)
        = "abhello......".toList :=
  crack_sound toyHash ⟨["a".toList, "hello".toList, "world".toList]⟩ "abhello......".toList 4
    [2, 0, 1] (by decide) (by decide)

/-- C3 fails on the code: with the one-word dictionary `:abc`, the valid
target `zz.abc.......` and one thread, the worker finds the word `:abc`, which
hashes to the target, and stores it in its slot; the join loop passes over
it, its first character being `':'`, and crack answers `":failed\n"`. -/
theorem crack_failed_incomplete :
    strlen "zz.abc.......".toList = CRYPT_LEN ∧
      strspn ("zz.abc.......".toList.take 2) PLAINTEXT_CHARS = 2 ∧
      ((crack_run toyHash "zz.abc.......".toList "zz".toList ⟨[":abc".toList]⟩ 1
          (crack_init ⟨[":abc".toList]⟩ 1)
          ([] ++ crack_join_sched 1 1)).threadData 0).result = some ":abc".toList ∧
      crack toyHash "zz.abc.......".toList 1 ⟨[":abc".toList]⟩ [] = FAILED ∧
      ∃ W ∈ [":abc".toList],
        toyHash W ("zz.abc.......".toList.take 2) = "zz.abc.......".toList := by
  decide

/-- C4. The worker slices partition the dictionary: for every size `M` and
every thread count `n ≥ 1`, each index below `M` lies in the slice
`[start, end)` of exactly one worker `i < n`. -/
theorem crack_thread_slices_partition (M n idx : Nat) (hn : 1 ≤ n) (hidx : idx < M) :
    ∃! i, i < n ∧ crack_thread_start M n i ≤ idx ∧ idx < crack_thread_end M n i := by
  obtain ⟨i, hi, h1, h2⟩ := slice_covers M n idx hn hidx
  refine ⟨i, ⟨hi, h1, h2⟩, ?_⟩
  rintro j ⟨hj, hj1, hj2⟩
  rcases Nat.lt_trichotomy j i with h | h | h
  · exact (slice_disjoint M n idx j i hi h hj2 h1).elim
  · exact h
  · exact (slice_disjoint M n idx i j hj h h2 hj1).elim

/-- Witness of C4: index 9 of a 10-word dictionary shared by 4 workers. -/
theorem crack_thread_slices_partition_witness :
    ∃! i, i < 4 ∧ crack_thread_start 10 4 i ≤ 9 ∧ 9 < crack_thread_end 10 4 i :=
  crack_thread_slices_partition 10 4 9 (by decide) (by decide)

/-- C5 as stated fails: with two words that collide under the hash and two
threads, the response depends on the interleaving.  When worker 0 runs first
the response is its match `ab`; when worker 1 takes two steps first it sets
the stop flag, worker 0 gives up, and the response is worker 1's match `ab.`,
not the match of the lowest-id worker whose slice holds one. -/
theorem crack_deterministic_counterexample :
    crack toyHash "zzab.........".toList 2 ⟨["ab".toList, "ab.".toList]⟩ [] = "ab".toList ∧
      crack toyHash "zzab.........".toList 2 ⟨["ab".toList, "ab.".toList]⟩ [1, 1]
        = "ab.".toList ∧
      firstMatchOf toyHash "zzab.........".toList ("zzab.........".toList.take 2)
        ⟨["ab".toList, "ab.".toList]⟩ 2 0 0 := by
  refine ⟨by decide, by decide, by decide, by decide, by decide, ?_⟩
  intro j h1 h2
  omega

/-- C5, amended. For a fixed dictionary, target and thread count: under every
interleaving the response of crack is `":invalid\n"`, `":failed\n"`, or the
lowest-index match of the slice of some worker.  When the lowest-index matches
of all the slices that hold a match are one and the same string, the response
is the same under every interleaving; and it is that string, the lowest-index
match of the lowest-id worker whose slice holds a match, when the target is
valid and the string does not begin with `':'`.  The condition holds, in
particular, when all the words that hash to the target lie in one slice. -/
theorem crack_deterministic (H : CStr → CStr → CStr) (dict : Dictionary)
    (encrypted : CStr) (numThreads : Nat) :
    (∀ sched, crack H encrypted numThreads dict sched = INVALID ∨
        crack H encrypted numThreads dict sched = FAILED ∨
        ∃ t i, t < numThreads ∧
          firstMatchOf H encrypted (encrypted.take 2) dict numThreads t i ∧
          crack H encrypted numThreads dict sched = dict.words.getD i []) ∧
      ((∀ t i u j, t < numThreads → u < numThreads →
          firstMatchOf H encrypted (encrypted.take 2) dict numThreads t i →
          firstMatchOf H encrypted (encrypted.take 2) dict numThreads u j →
          dict.words.getD i [] = dict.words.getD j []) →
        (∀ sched1 sched2, crack H encrypted numThreads dict sched1
          = crack H encrypted numThreads dict sched2) ∧
        ∀ t i, t < numThreads →
          firstMatchOf H encrypted (encrypted.take 2) dict numThreads t i →
          (dict.words.getD i []).head? ≠ some ':' →
          encrypted.length = 13 → strspn (encrypted.take 2) PLAINTEXT_CHARS = 2 →
          ∀ sched, crack H encrypted numThreads dict sched = dict.words.getD i []) ∧
      (∀ t0, t0 < numThreads →
        (∀ j, j < dict.words.length → matchesAt H encrypted (encrypted.take 2) dict j →
          crack_thread_start dict.numWords numThreads t0 ≤ j ∧
            j < crack_thread_end dict.numWords numThreads t0) →
        ∀ t i u j, t < numThreads → u < numThreads →
          firstMatchOf H encrypted (encrypted.take 2) dict numThreads t i →
          firstMatchOf H encrypted (encrypted.take 2) dict numThreads u j →
          dict.words.getD i [] = dict.words.getD j []) := by
  have hcases : ∀ sched, crack H encrypted numThreads dict sched = INVALID ∨
      crack H encrypted numThreads dict sched = FAILED ∨
      ∃ t i, t < numThreads ∧
        firstMatchOf H encrypted (encrypted.take 2) dict numThreads t i ∧
        crack H encrypted numThreads dict sched = dict.words.getD i [] := by
    intro sched
    rcases crack_cases H dict encrypted numThreads sched with h | ⟨_, _, h | ⟨_, h⟩⟩
    · exact Or.inl h
    · exact Or.inr (Or.inl h)
    · exact Or.inr (Or.inr h)
  refine ⟨hcases, fun hsame => ?_, ?_⟩
  swap
  · -- the matches lie in one slice: the workers with a first match are that one
    intro t0 ht0 hone t i u j ht hu hfm hfmu
    have hslice : ∀ v k, v < numThreads →
        firstMatchOf H encrypted (encrypted.take 2) dict numThreads v k → v = t0 := by
      intro v k hv hk
      obtain ⟨h1, h2⟩ := hone k (firstMatchOf_lt H encrypted _ dict numThreads hv hk) hk.2.2.1
      rcases Nat.lt_trichotomy v t0 with h | h | h
      · exact (slice_disjoint dict.numWords numThreads k v t0 ht0 h hk.2.1 h1).elim
      · exact h
      · exact (slice_disjoint dict.numWords numThreads k t0 v hv h h2 hk.1).elim
    have e1 := hslice t i ht hfm
    have e2 := hslice u j hu hfmu
    subst e1
    subst e2
    rcases Nat.lt_trichotomy i j with h | h | h
    · exact absurd hfm.2.2.1 (hfmu.2.2.2 i hfm.1 h)
    · rw [h]
    · exact absurd hfmu.2.2.1 (hfm.2.2.2 j hfmu.1 h)
  -- a search that fails while a slice holds a match whose word has no colon
  have key : ∀ s t i, t < numThreads →
      firstMatchOf H encrypted (encrypted.take 2) dict numThreads t i →
      (dict.words.getD i []).head? ≠ some ':' →
      crack H encrypted numThreads dict s ≠ FAILED := by
    intro s t i ht hfm hhead hf
    obtain ⟨u, j, hu, hfmu, hcolon⟩ := crack_failed_first H dict encrypted numThreads
      (by omega) s hf i (firstMatchOf_lt H encrypted _ dict numThreads ht hfm) hfm.2.2.1
    rw [hsame t i u j ht hu hfm hfmu] at hhead
    exact hhead hcolon
  refine ⟨?_, ?_⟩
  · intro s1 s2
    by_cases hv : encrypted.length = 13 ∧ strspn (encrypted.take 2) PLAINTEXT_CHARS = 2
    swap
    · have e : ∀ s, crack H encrypted numThreads dict s = INVALID := by
        intro s
        rcases crack_cases H dict encrypted numThreads s with h | ⟨h1, h2, _⟩
        · exact h
        · exact absurd ⟨h1, h2⟩ hv
      rw [e s1, e s2]
    have ne : ∀ s, crack H encrypted numThreads dict s ≠ INVALID :=
      fun s => crack_ne_invalid H dict encrypted numThreads s hv.1 hv.2
    rcases crack_cases H dict encrypted numThreads s1 with h1 | ⟨_, _, h1 | ⟨hh1, t, i, ht, hfm, h1⟩⟩
    · exact absurd h1 (ne s1)
    · rcases crack_cases H dict encrypted numThreads s2 with
        h2 | ⟨_, _, h2 | ⟨hh2, u, j, hu, hfmu, h2⟩⟩
      · exact absurd h2 (ne s2)
      · rw [h1, h2]
      · rw [h2] at hh2
        exact absurd h1 (key s1 u j hu hfmu hh2)
    · rcases crack_cases H dict encrypted numThreads s2 with
        h2 | ⟨_, _, h2 | ⟨_, u, j, hu, hfmu, h2⟩⟩
      · exact absurd h2 (ne s2)
      · rw [h1] at hh1
        exact absurd h2 (key s2 t i ht hfm hh1)
      · rw [h1, h2]
        exact hsame t i u j ht hu hfm hfmu
  · intro t i ht hfm hhead hlen hsalt sched
    rcases hcases sched with h | h | ⟨u, j, hu, hfmu, h⟩
    · exact absurd h (crack_ne_invalid H dict encrypted numThreads sched hlen hsalt)
    · exact absurd h (key sched t i ht hfm hhead)
    · rw [h]
      exact hsame u j t i hu ht hfmu hfm

/-- Witness of C5 amended: the two colliding words `ab` and `ab.` lie in the
slice of worker 0 of two, and the response is `ab` also when worker 1 moves
first. -/
theorem crack_deterministic_witness :
    crack toyHash "zzab.........".toList 2
        ⟨["ab".toList, "ab.".toList, "x".toList, "y".toList]⟩ [1, 1, 1, 0]
      = "ab".toList :=
  (crack_deterministic toyHash ⟨["ab".toList, "ab.".toList, "x".toList, "y".toList]⟩
    "zzab.........".toList 2).2.1
    (by
      have hstart : ∀ t, t < 2 → crack_thread_start
          (Dictionary.numWords ⟨["ab".toList, "ab.".toList, "x".toList, "y".toList]⟩) 2 t
          = 2 * t := by decide
      have hfirst : ∀ t i, t < 2 →
          firstMatchOf toyHash "zzab.........".toList ("zzab.........".toList.take 2)
            ⟨["ab".toList, "ab.".toList, "x".toList, "y".toList]⟩ 2 t i → i = 0 := by
        intro t i ht hfm
        have hi := firstMatchOf_lt toyHash "zzab.........".toList _
          ⟨["ab".toList, "ab.".toList, "x".toList, "y".toList]⟩ 2 ht hfm
        have hm := hfm.2.2.1
        have hlo := hfm.1
        have hno := hfm.2.2.2
        rw [hstart t ht] at hlo hno
        simp only [List.length_cons, List.length_nil] at hi
        have h0 : matchesAt toyHash "zzab.........".toList ("zzab.........".toList.take 2)
            ⟨["ab".toList, "ab.".toList, "x".toList, "y".toList]⟩ 0 := by decide
        interval_cases t
        · by_contra hne
          exact hno 0 (by omega) (by omega) h0
        · interval_cases i
          · revert hm; decide
          · revert hm; decide
      intro t i u j ht hu hfm hfmu
      rw [hfirst t i ht hfm, hfirst u j hu hfmu])
    |>.2 0 0 (by decide)
      ⟨by decide, by decide, by decide, by
        intro j h1 h2
        omega⟩
      (by decide) (by decide) (by decide) [1, 1, 1, 0]

/-- A request line that does not split on single spaces into exactly three
tokens, or whose first token is neither `crypt` nor `crack`, is answered with
the literal `":invalid\n"`, provided that the slot read past the array is NULL
if the line is `crack` or `crypt`. -/
theorem do_command_shape_invalid (H : CStr → CStr → CStr) (command : CStr)
    (dict : Dictionary) (sched : List Nat) (beyond : Option CStr)
    (h : (command.splitOn ' ').length ≠ 3 ∨
      ((command.splitOn ' ').head? ≠ some "crypt".toList ∧
        (command.splitOn ' ').head? ≠ some "crack".toList))
    (hslot : command = "crack".toList ∨ command = "crypt".toList → beyond = none) :
    do_command H command dict sched beyond = some INVALID := by
  have ek : "crack".toList = ['c', 'r', 'a', 'c', 'k'] := rfl
  have ey : "crypt".toList = ['c', 'r', 'y', 'p', 't'] := rfl
  rw [ek, ey] at h hslot
  rcases request_shape command with ⟨_, _, hone⟩ | ⟨a0, a1, _, _, _, _, htwo⟩ |
    ⟨a0, a1, rest, _, _, _, hsplit, hhead, hrest⟩
  · rcases do_command_one_field H dict sched beyond command hone with h1 | ⟨_, h2, h3⟩
    · exact h1
    · exact absurd (hslot h2) h3
  · exact do_command_two_fields H dict sched beyond command a0 a1 htwo
  · have hsp : ' ' ∈ rest ∨ (a0 ≠ ['c', 'r', 'y', 'p', 't'] ∧ a0 ≠ ['c', 'r', 'a', 'c', 'k']) := by
      rcases hrest with ⟨_, h3⟩ | ⟨h4, _⟩
      · right
        rw [hhead] at h
        rcases h with h | h
        · rw [h3] at h
          exact absurd rfl h
        · exact ⟨fun e => h.1 (by rw [e]), fun e => h.2 (by rw [e])⟩
      · exact Or.inl h4
    by_cases hk : a0 = ['c', 'r', 'a', 'c', 'k']
    · subst hk
      rcases hsp with hsp | hsp
      swap
      · exact absurd rfl hsp.2
      rw [do_command_crack_fields H dict sched beyond command a1 rest hsplit, if_pos]
      right
      cases hd : is_digits rest with
      | false => rfl
      | true =>
        have := ((is_digits_eq_true_iff rest).mp hd).2 ' ' hsp
        rw [space_not_digit] at this
        cases this
    by_cases hy : a0 = ['c', 'r', 'y', 'p', 't']
    · subst hy
      rcases hsp with hsp | hsp
      swap
      · exact absurd rfl hsp.1
      rw [do_command_crypt_fields H dict sched beyond command a1 rest hsplit]
      by_cases hl : rest.length ≠ 2
      · rw [if_pos hl]
      · rw [if_neg hl, if_pos]
        intro hs
        have hl2 : rest.length = 2 := not_not.mp hl
        have := (strspn_eq_length_iff rest PLAINTEXT_CHARS).mp (by rw [hs, hl2]) ' ' hsp
        exact space_not_plaintext this
    · exact do_command_other_fields H dict sched beyond command a0 a1 rest hsplit hk hy

/-- C6 fails on the code.  The request lines `crack` and `crypt` have one
token; `split_by_char` gives the array of that field and the terminating NULL,
and do_command tests `arguments[2]`, the slot after the array.  When that slot
holds NULL the answer is `":invalid\n"`.  When it holds a pointer to the string
`7`, the line `crack` passes the checks of the thread count and `crack` is
called on `arguments[1]`, which is NULL; when it holds a pointer to `ab`, the
line `crypt` passes the checks of the salt and `crypt_r` is called on
`arguments[1]`: in both cases no answer is defined. -/
theorem do_command_one_token :
    ("crack".toList.splitOn ' ').length = 1 ∧
      split_by_char "crack".toList ' ' MAX_COMMAND_ARGS = ["crack".toList] ∧
      do_command toyHash "crack".toList ⟨["hello".toList]⟩ [] none = some INVALID ∧
      do_command toyHash "crack".toList ⟨["hello".toList]⟩ [] (some "7".toList) = none ∧
      split_by_char "crypt".toList ' ' MAX_COMMAND_ARGS = ["crypt".toList] ∧
      do_command toyHash "crypt".toList ⟨["hello".toList]⟩ [] none = some INVALID ∧
      do_command toyHash "crypt".toList ⟨["hello".toList]⟩ [] (some "ab".toList) = none := by
  decide

/-- C7. A three-token request `crack a1 a2` is answered `:invalid` exactly when
`a1` is not 13 characters long, or one of its first two characters is outside
the salt alphabet, or `a2` holds a character that is not a decimal digit, or
`a2` has more than two characters, or the value of `a2` is outside `[1, 50]`;
in every other case the answer is that of the dictionary search (whatever
lies past the array of the fields, the line having three fields). -/
theorem do_command_crack_invalid_iff (H : CStr → CStr → CStr) (dict : Dictionary)
    (sched : List Nat) (beyond : Option CStr) (a1 a2 : CStr) (h1 : ' ' ∉ a1) :
    (do_command H ("crack".toList ++ ' ' :: (a1 ++ ' ' :: a2)) dict sched beyond
          = some INVALID ↔
        (a1.length ≠ 13 ∨ (∃ c ∈ a1.take 2, saltAlphabet c = false) ∨
          (∃ c ∈ a2, isdigit c = false) ∨ 2 < a2.length ∨ atoi a2 < 1 ∨ 50 < atoi a2)) ∧
      (¬ (a1.length ≠ 13 ∨ (∃ c ∈ a1.take 2, saltAlphabet c = false) ∨
          (∃ c ∈ a2, isdigit c = false) ∨ 2 < a2.length ∨ atoi a2 < 1 ∨ 50 < atoi a2) →
        do_command H ("crack".toList ++ ' ' :: (a1 ++ ' ' :: a2)) dict sched beyond
          = some (crack_search H a1 (a1.take 2) (atoi a2).toNat dict sched)) := by
  simp only [saltAlphabet_false_iff]
  have ek : "crack".toList = ['c', 'r', 'a', 'c', 'k'] := rfl
  have hsplit := split_by_char_three ['c', 'r', 'a', 'c', 'k'] a1 a2 (by decide) h1
  rw [ek, do_command_crack_fields H dict sched beyond _ a1 a2 hsplit]
  simp only [Option.some.injEq]
  have hvalid : ¬ (a1.length ≠ 13 ∨ (∃ c ∈ a1.take 2, c ∉ PLAINTEXT_CHARS) ∨
      (∃ c ∈ a2, isdigit c = false) ∨ 2 < a2.length ∨ atoi a2 < 1 ∨ 50 < atoi a2) →
      (if 2 < a2.length ∨ is_digits a2 = false then INVALID
        else if 50 < atoi a2 ∨ atoi a2 ≤ 0 then INVALID
        else crack H a1 (atoi a2).toNat dict sched)
        = crack_search H a1 (a1.take 2) (atoi a2).toNat dict sched := by
    intro hc
    push_neg at hc
    obtain ⟨hlen, hsalt, hdig, hl2, hge, hle⟩ := hc
    have hne : a2 ≠ [] := by
      rintro rfl
      exact absurd hge (by decide)
    have hd : is_digits a2 = true := (is_digits_eq_true_iff a2).mpr ⟨hne, by simpa using hdig⟩
    rw [if_neg (by rw [hd]; simp; omega), if_neg (by omega)]
    apply crack_valid H dict a1 _ sched hlen
    have ht : (a1.take 2).length = 2 := by simp [hlen]
    exact ((strspn_eq_length_iff _ _).mpr hsalt).trans ht
  refine ⟨⟨?_, ?_⟩, hvalid⟩
  · intro hinv
    by_contra hc
    rw [hvalid hc] at hinv
    rcases crack_search_cases H a1 (a1.take 2) dict (atoi a2).toNat sched with h | ⟨h, _⟩
    · rw [hinv] at h
      exact invalid_ne_failed h
    · rw [hinv] at h
      exact h rfl
  · intro hc
    by_cases c1 : 2 < a2.length ∨ is_digits a2 = false
    · rw [if_pos c1]
    rw [if_neg c1]
    by_cases c2 : 50 < atoi a2 ∨ atoi a2 ≤ 0
    · rw [if_pos c2]
    rw [if_neg c2]
    push_neg at c1 c2
    rcases crack_cases H dict a1 (atoi a2).toNat sched with h | ⟨hlen, hsalt, _⟩
    · exact h
    exfalso
    have ht : (a1.take 2).length = 2 := by simp [hlen]
    have hall := (strspn_eq_length_iff (a1.take 2) PLAINTEXT_CHARS).mp (by rw [hsalt, ht])
    have hd := (is_digits_eq_true_iff a2).mp (by simpa using c1.2)
    rcases hc with h | ⟨c, hc1, hc2⟩ | ⟨c, hc1, hc2⟩ | h | h | h
    · exact h hlen
    · exact hc2 (hall c hc1)
    · rw [hd.2 c hc1] at hc2
      cases hc2
    · omega
    · omega
    · omega

/-- Witness of C7: a well-formed crack request with a plaintext in the dictionary. -/
theorem do_command_crack_invalid_iff_witness :
    do_command toyHash ("crack".toList ++ ' ' :: ("abhello......".toList ++ ' ' :: "4".toList))
        ⟨["hello".toList]⟩ [] none ≠ some INVALID := by
  intro h
  have := (do_command_crack_invalid_iff toyHash ⟨["hello".toList]⟩ [] none "abhello......".toList
    "4".toList (by decide)).1.mp h
  revert this
  decide

/-- C8. A three-token request `crypt p s` is answered `:invalid` exactly when
`s` is not two characters long or holds a character outside the salt alphabet;
otherwise the answer is `H p s`, with `p` as received (`H` gives 13 characters
for a valid salt). -/
theorem do_command_crypt_invalid_iff (H : CStr → CStr → CStr) (dict : Dictionary)
    (sched : List Nat) (beyond : Option CStr) (p s : CStr) (hp : ' ' ∉ p)
    (hH : s.length = 2 → (∀ c ∈ s, saltAlphabet c = true) → (H p s).length = CRYPT_LEN) :
    (do_command H ("crypt".toList ++ ' ' :: (p ++ ' ' :: s)) dict sched beyond
          = some INVALID ↔
        (s.length ≠ 2 ∨ ∃ c ∈ s, saltAlphabet c = false)) ∧
      (¬ (s.length ≠ 2 ∨ ∃ c ∈ s, saltAlphabet c = false) →
        do_command H ("crypt".toList ++ ' ' :: (p ++ ' ' :: s)) dict sched beyond
          = some (H p s)) := by
  simp only [saltAlphabet_false_iff]
  simp only [← mem_PLAINTEXT_CHARS_iff] at hH
  have ey : "crypt".toList = ['c', 'r', 'y', 'p', 't'] := rfl
  have hsplit := split_by_char_three ['c', 'r', 'y', 'p', 't'] p s (by decide) hp
  rw [ey, do_command_crypt_fields H dict sched beyond _ p s hsplit]
  simp only [Option.some.injEq]
  have hvalid : ¬ (s.length ≠ 2 ∨ ∃ c ∈ s, c ∉ PLAINTEXT_CHARS) →
      s.length = 2 ∧ (∀ c ∈ s, c ∈ PLAINTEXT_CHARS) ∧
      (if s.length ≠ 2 then INVALID
        else if strspn s PLAINTEXT_CHARS ≠ 2 then INVALID else H p s) = H p s := by
    intro hc
    push_neg at hc
    obtain ⟨hl, hall⟩ := hc
    have hs : strspn s PLAINTEXT_CHARS = 2 := ((strspn_eq_length_iff _ _).mpr hall).trans hl
    refine ⟨hl, hall, ?_⟩
    rw [if_neg (not_not.mpr hl), if_neg (not_not.mpr hs)]
  refine ⟨⟨?_, ?_⟩, fun hc => (hvalid hc).2.2⟩
  · intro hinv
    by_contra hc
    obtain ⟨hl, hall, he⟩ := hvalid hc
    rw [he] at hinv
    have := hH hl hall
    rw [hinv] at this
    revert this
    decide
  · intro hc
    by_cases hl : s.length ≠ 2
    · rw [if_pos hl]
    rw [if_neg hl]
    by_cases hs : strspn s PLAINTEXT_CHARS ≠ 2
    · rw [if_pos hs]
    exfalso
    have hl2 : s.length = 2 := not_not.mp hl
    have hall := (strspn_eq_length_iff s PLAINTEXT_CHARS).mp ((not_not.mp hs).trans hl2.symm)
    rcases hc with h | ⟨c, hc1, hc2⟩
    · exact h hl2
    · exact hc2 (hall c hc1)

/-- Witness of C8: `crypt hello a!` is invalid, the salt holding `!`. -/
theorem do_command_crypt_invalid_iff_witness :
    do_command toyHash ("crypt".toList ++ ' ' :: ("hello".toList ++ ' ' :: "a!".toList))
        ⟨["hello".toList]⟩ [] none = some INVALID :=
  (do_command_crypt_invalid_iff toyHash ⟨["hello".toList]⟩ [] none "hello".toList "a!".toList
    (by decide) (fun _ _ => toyHash_length _ _ (by decide))).1.mpr (by decide)

/-- C9. If `H` outputs a string that begins with the salt, then for every
request line, dictionary and interleaving, and whatever the read of the slot
past the array of a one-field line finds: a response of do_command that begins
with `':'` is `":invalid\n"` or `":failed\n"`, and a response that does not
begin with `':'` is the ciphertext `H p s` of a crypt request with a valid
salt, or, for a crack request, a word of the dictionary whose hash under the
salt of the target equals the target.  The response is defined except, at
most, for the lines `crack` and `crypt` when that slot is not NULL. -/
theorem do_command_response (H : CStr → CStr → CStr)
    (hH : ∀ p s : CStr, s.length = 2 → (∀ c ∈ s, c ∈ PLAINTEXT_CHARS) → (H p s).take 2 = s)
    (command : CStr) (dict : Dictionary) (sched : List Nat) (beyond : Option CStr) :
    (do_command H command dict sched beyond = none →
        (command = "crack".toList ∨ command = "crypt".toList) ∧ beyond ≠ none) ∧
      ∀ response, do_command H command dict sched beyond = some response →
        (response.head? = some ':' → response = INVALID ∨ response = FAILED) ∧
        (response.head? ≠ some ':' →
          ∃ a1 a2,
            (split_by_char command ' ' MAX_COMMAND_ARGS = ["crypt".toList, a1, a2] ∧
              a2.length = 2 ∧ (∀ c ∈ a2, c ∈ PLAINTEXT_CHARS) ∧ response = H a1 a2) ∨
            (split_by_char command ' ' MAX_COMMAND_ARGS = ["crack".toList, a1, a2] ∧
              response ∈ dict.words ∧ H response (a1.take 2) = a1)) := by
  have ek : "crack".toList = ['c', 'r', 'a', 'c', 'k'] := rfl
  have ey : "crypt".toList = ['c', 'r', 'y', 'p', 't'] := rfl
  rw [ek, ey]
  have key := do_command_cases H hH command dict sched beyond
  refine ⟨?_, ?_⟩
  · intro hnone
    rcases key with ⟨_, h⟩ | ⟨r, hr, _⟩
    · exact h
    · rw [hnone] at hr
      cases hr
  · intro response hresp
    rcases key with ⟨hnone, _⟩ | ⟨r, hr, hcases⟩
    · rw [hnone] at hresp
      cases hresp
    rw [hresp] at hr
    cases hr
    constructor
    · intro hhead
      rcases hcases with h | h | ⟨h, _⟩
      · exact Or.inl h
      · exact Or.inr h
      · exact absurd hhead h
    · intro hhead
      rcases hcases with h | h | ⟨_, h⟩
      · rw [h] at hhead
        exact absurd rfl hhead
      · rw [h] at hhead
        exact absurd rfl hhead
      · exact h

/-- Witness of C9: the response to `crack abhello...... 2` is the word `hello`. -/
theorem do_command_response_witness :
    do_command toyHash "crack abhello...... 2".toList ⟨["hello".toList]⟩ [1] none
        = some "hello".toList ∧
      ∃ a1 a2,
        (split_by_char "crack abhello...... 2".toList ' ' MAX_COMMAND_ARGS
            = ["crypt".toList, a1, a2] ∧
          a2.length = 2 ∧ (∀ c ∈ a2, c ∈ PLAINTEXT_CHARS) ∧
          "hello".toList = toyHash a1 a2) ∨
        (split_by_char "crack abhello...... 2".toList ' ' MAX_COMMAND_ARGS
            = ["crack".toList, a1, a2] ∧
          "hello".toList ∈ ["hello".toList] ∧
          toyHash "hello".toList (a1.take 2) = a1) :=
  ⟨by decide,
    ((do_command_response toyHash (fun p s hs _ => toyHash_salt p s hs)
      "crack abhello...... 2".toList ⟨["hello".toList]⟩ [1] none).2 "hello".toList
      (by decide)).2 (by decide)⟩

/-! ## The request loop -/

theorem client_thread_cons (H : CStr → CStr → CStr) (dict : Dictionary) (line : CStr)
    (sched : List Nat) (beyond : Option CStr) (rest : List (CStr × List Nat × Option CStr)) :
    client_thread H dict ((line, sched, beyond) :: rest) =
      match do_command H line dict sched beyond with
      | none => none
      | some response =>
        match client_thread H dict rest with
        | none => none
        | some more =>
          some ((if response.head? ≠ some ':' then add_new_line response else response)
            :: more) := rfl

theorem process_connections_step_max (s : Server) (e : Event) :
    (process_connections_step s e).params.maxConnections = s.params.maxConnections := by
  cases e with
  | accepted =>
    unfold process_connections_step
    cases s.listener <;> rfl
  | admission =>
    unfold process_connections_step
    cases s.listener with
    | accepting => rfl
    | admitting =>
      simp only
      split <;> rfl
  | leave =>
    unfold process_connections_step
    cases s.handlers <;> rfl

theorem process_connections_max (events : List Event) (s : Server) :
    (process_connections s events).params.maxConnections = s.params.maxConnections := by
  induction events generalizing s with
  | nil => rfl
  | cons e rest ih =>
    simp only [process_connections, List.foldl_cons] at ih ⊢
    rw [ih, process_connections_step_max]

/-- The counter equals the number of live client threads, and stays within a
positive bound. -/
theorem admission_step_inv (s : Server) (e : Event)
    (h : s.params.currentNumConns = (s.handlers : Int) ∧
      (0 < s.params.maxConnections → s.params.currentNumConns ≤ s.params.maxConnections)) :
    (process_connections_step s e).params.currentNumConns
        = ((process_connections_step s e).handlers : Int) ∧
      (0 < s.params.maxConnections →
        (process_connections_step s e).params.currentNumConns ≤ s.params.maxConnections) := by
  obtain ⟨h1, h2⟩ := h
  cases e with
  | accepted =>
    unfold process_connections_step
    cases s.listener <;> exact ⟨h1, h2⟩
  | admission =>
    unfold process_connections_step
    cases s.listener with
    | accepting => exact ⟨h1, h2⟩
    | admitting =>
      simp only
      split
      · exact ⟨h1, h2⟩
      · rename_i hc
        simp only [not_and_or, not_not, not_le] at hc
        refine ⟨by simp only [h1]; push_cast; ring, fun hpos => ?_⟩
        simp only
        rcases hc with hc | hc
        · omega
        · omega
  | leave =>
    unfold process_connections_step
    cases hh : s.handlers with
    | zero =>
      simp only
      exact ⟨h1, h2⟩
    | succ k =>
      simp only
      rw [hh] at h1
      refine ⟨by rw [h1]; push_cast; ring, fun hpos => ?_⟩
      have := h2 hpos
      omega

theorem admission_run_inv (events : List Event) (s : Server)
    (h : s.params.currentNumConns = (s.handlers : Int) ∧
      (0 < s.params.maxConnections → s.params.currentNumConns ≤ s.params.maxConnections)) :
    (process_connections s events).params.currentNumConns
        = ((process_connections s events).handlers : Int) ∧
      (0 < s.params.maxConnections →
        (process_connections s events).params.currentNumConns ≤ s.params.maxConnections) := by
  induction events generalizing s with
  | nil => exact h
  | cons e rest ih =>
    have hstep := admission_step_inv s e h
    have := ih (process_connections_step s e)
      ⟨hstep.1, by rw [process_connections_step_max]; exact hstep.2⟩
    rw [process_connections_step_max] at this
    exact this

/-- Without a client thread leaving, a listener that waits at a full server
keeps waiting and nothing changes. -/
theorem process_connections_blocked (events : List Event) (s : Server)
    (hl : s.listener = ListenerPc.admitting)
    (hfull : s.params.maxConnections ≠ 0 ∧ s.params.currentNumConns ≥ s.params.maxConnections)
    (hno : Event.leave ∉ events) :
    process_connections s events = s := by
  induction events with
  | nil => rfl
  | cons e rest ih =>
    have hstep : process_connections_step s e = s := by
      cases e with
      | accepted => simp only [process_connections_step, hl]
      | admission => simp only [process_connections_step, hl, if_pos hfull]
      | leave => exact absurd (List.mem_cons_self _ _) hno
    simp only [process_connections, List.foldl_cons, hstep]
    exact ih (fun hm => hno (List.mem_cons_of_mem _ hm))

/-! ## The reply of the coordinator -/

/-- The join loop leaves before the last thread whenever an earlier thread holds
a result that does not begin with `':'`. -/
theorem crack_joined_lt (threadData : Nat → CrackThreadData) (k i t : Nat) (r : CStr)
    (h1 : i ≤ t) (h2 : t + 1 < i + k) (hres : (threadData t).result = some r)
    (hhead : r.head? ≠ some ':') :
    crack_joined threadData k i < k := by
  induction k generalizing i with
  | zero => omega
  | succ k ih =>
    unfold crack_joined
    rcases Nat.eq_or_lt_of_le h1 with he | hl
    · subst he
      simp only [hres, if_pos hhead]
      omega
    · have := ih (i + 1) hl (by omega)
      cases hi : (threadData i).result with
      | none => simp only; omega
      | some w =>
        simp only
        split
        · omega
        · omega

/-! ## Start-up -/

theorem toInt32_of_lt (n : Nat) (h : n < 2 ^ 31) : toInt32 n = (n : Int) := by
  unfold toInt32
  have h1 : (n : Int) < 2 ^ 31 := by exact_mod_cast h
  have h2 : (0 : Int) ≤ (n : Int) := Int.ofNat_nonneg n
  rw [Int.emod_eq_of_lt (by omega) (by omega)]
  omega


theorem process_dict_loop_cons (l : CStr) (more words : List CStr) (k : Nat) :
    process_dict_loop (l :: more) (words, k) =
      if toInt32 (strlen l) > (MAX_WORD_LEN : Int) ∨ toInt32 (strlen l) = 0 then
        process_dict_loop more (words, k)
      else process_dict_loop more (words.take k ++ [l], k + 1) := rfl

/-- The reading loop keeps, behind the entries it starts from, the lines of
length 1 to 8, and counts the entries. -/
theorem process_dict_loop_filter (lines words : List CStr)
    (hlen : ∀ l ∈ lines, l.length < 2 ^ 31) :
    process_dict_loop lines (words, words.length)
      = (words ++ lines.filter (fun l => decide (1 ≤ l.length ∧ l.length ≤ 8)),
          (words ++ lines.filter (fun l => decide (1 ≤ l.length ∧ l.length ≤ 8))).length) := by
  induction lines generalizing words with
  | nil => simp [process_dict_loop]
  | cons l more ih =>
    have hl := hlen l (List.mem_cons_self _ _)
    have hmore : ∀ x ∈ more, x.length < 2 ^ 31 := fun x hx => hlen x (List.mem_cons_of_mem _ hx)
    rw [process_dict_loop_cons]
    simp only [strlen, toInt32_of_lt l.length hl, MAX_WORD_LEN]
    by_cases hk : 1 ≤ l.length ∧ l.length ≤ 8
    · have hc : ¬ (((l.length : Nat) : Int) > ((8 : Nat) : Int) ∨ ((l.length : Nat) : Int) = 0) := by
        omega
      rw [if_neg hc, List.take_length]
      have := ih (words ++ [l]) hmore
      simp only [List.length_append, List.length_singleton] at this
      rw [this]
      simp [List.filter_cons, hk]
      omega
    · have hc : ((l.length : Nat) : Int) > ((8 : Nat) : Int) ∨ ((l.length : Nat) : Int) = 0 := by
        omega
      rw [if_pos hc, ih words hmore]
      simp [List.filter_cons, hk]

theorem process_dict_of_lines (fopen : CStr → Option (List CStr)) (dictPath : CStr)
    (lines : List CStr) (hopen : fopen dictPath = some lines)
    (hlen : ∀ l ∈ lines, l.length < 2 ^ 31) :
    process_dict fopen dictPath
      = if lines.filter (fun l => decide (1 ≤ l.length ∧ l.length ≤ 8)) = [] then
          Except.error EMPTY_DICT
        else Except.ok ⟨lines.filter (fun l => decide (1 ≤ l.length ∧ l.length ≤ 8))⟩ := by
  unfold process_dict
  have h := process_dict_loop_filter lines [] hlen
  simp only [List.length_nil, List.nil_append] at h
  simp only [hopen, h, List.length_eq_zero]

/-! ## The claims on admission, the coordinator and start-up -/

/-- C11. Admission invariant: from the state in which `main` starts the accept
loop (counter 0), after every sequence of admissions of the listener and exits
of client threads the counter `currentNumConns` is at least 0, and it is at
most `maxConnections` whenever `maxConnections` is positive. -/
theorem admission_invariant (params : ServerParams) (events : List Event) :
    0 ≤ (process_connections (process_connections_init params) events).params.currentNumConns ∧
      (0 < params.maxConnections →
        (process_connections (process_connections_init params) events).params.currentNumConns
          ≤ params.maxConnections) := by
  have h := admission_run_inv events (process_connections_init params)
    ⟨rfl, fun hpos => le_of_lt hpos⟩
  refine ⟨?_, h.2⟩
  rw [h.1]
  exact Int.ofNat_nonneg _

/-- Witness of C11: with `maxConnections = 1`, two connections and one exit. -/
theorem admission_invariant_witness :
    (process_connections
        (process_connections_init
          { dictPath := [], dict := { words := [] }, port := ANY_PORTNUM, socketfd := 3,
            maxConnections := 1, currentNumConns := 0, totalConns := 0 })
        [Event.accepted, Event.admission, Event.accepted, Event.admission, Event.leave,
          Event.admission]).params.currentNumConns ≤ 1 :=
  (admission_invariant
    { dictPath := [], dict := { words := [] }, port := ANY_PORTNUM, socketfd := 3,
      maxConnections := 1, currentNumConns := 0, totalConns := 0 }
    [Event.accepted, Event.admission, Event.accepted, Event.admission, Event.leave,
      Event.admission]).2 (by decide)

/-- C12. Admission guard: for a listener that holds an accepted connection, the
admission step completes (the listener goes back to `accept`, the counter is
incremented and a client thread is started) exactly when `maxConnections = 0`
or `currentNumConns < maxConnections`, and changes nothing otherwise; with
`maxConnections = 0` it completes whatever the counter; with
`maxConnections = 1` and one active connection it does not complete as long as
no client thread leaves, and it completes once that thread has left. -/
theorem admission_guard (s : Server) (hl : s.listener = ListenerPc.admitting) :
    ((process_connections_step s Event.admission).listener = ListenerPc.accepting ↔
        (s.params.maxConnections = 0 ∨ s.params.currentNumConns < s.params.maxConnections)) ∧
      ((s.params.maxConnections = 0 ∨ s.params.currentNumConns < s.params.maxConnections) →
        (process_connections_step s Event.admission).params.currentNumConns
            = s.params.currentNumConns + 1 ∧
          (process_connections_step s Event.admission).handlers = s.handlers + 1) ∧
      (¬ (s.params.maxConnections = 0 ∨ s.params.currentNumConns < s.params.maxConnections) →
        process_connections_step s Event.admission = s) ∧
      (s.params.maxConnections = 0 →
        (process_connections_step s Event.admission).listener = ListenerPc.accepting) ∧
      (s.params.maxConnections = 1 → s.params.currentNumConns = 1 → s.handlers = 1 →
        (∀ events, Event.leave ∉ events →
          (process_connections s events).listener = ListenerPc.admitting ∧
            (process_connections s events).handlers = 1) ∧
        (process_connections s [Event.leave, Event.admission]).listener
            = ListenerPc.accepting ∧
          (process_connections s [Event.leave, Event.admission]).params.currentNumConns = 1) := by
  have hopen : (s.params.maxConnections = 0 ∨
      s.params.currentNumConns < s.params.maxConnections) →
      process_connections_step s Event.admission =
        { params := { s.params with currentNumConns := s.params.currentNumConns + 1,
                                    totalConns := s.params.totalConns + 1 }
          listener := ListenerPc.accepting
          handlers := s.handlers + 1 } := by
    intro h
    have hc : ¬ (s.params.maxConnections ≠ 0 ∧
        s.params.currentNumConns ≥ s.params.maxConnections) := by
      rintro ⟨h1, h2⟩
      rcases h with h | h
      · exact h1 h
      · omega
    simp only [process_connections_step, hl, if_neg hc]
  have hfull : ¬ (s.params.maxConnections = 0 ∨
      s.params.currentNumConns < s.params.maxConnections) →
      process_connections_step s Event.admission = s := by
    intro h
    have hc : s.params.maxConnections ≠ 0 ∧
        s.params.currentNumConns ≥ s.params.maxConnections := by
      push_neg at h
      exact ⟨h.1, h.2⟩
    simp only [process_connections_step, hl, if_pos hc]
  refine ⟨⟨?_, ?_⟩, ?_, hfull, ?_, ?_⟩
  · intro hdone
    by_contra hc
    rw [hfull hc, hl] at hdone
    cases hdone
  · intro h
    rw [hopen h]
  · intro h
    rw [hopen h]
    exact ⟨rfl, rfl⟩
  · intro h
    rw [hopen (Or.inl h)]
  · intro hmax hcur hh
    refine ⟨?_, ?_⟩
    · intro events hno
      rw [process_connections_blocked events s hl ⟨by omega, by omega⟩ hno]
      exact ⟨hl, hh⟩
    · simp only [process_connections, List.foldl_cons, List.foldl_nil]
      simp only [process_connections_step, hh, hl, hmax, hcur]
      constructor <;> simp

/-- Witness of C12: a second connection at a server with `maxConnections = 1`
and one active connection. -/
theorem admission_guard_witness :
    process_connections_step
        { params := { dictPath := [], dict := { words := [] }, port := ANY_PORTNUM,
                      socketfd := 3, maxConnections := 1, currentNumConns := 1,
                      totalConns := 1 }
          listener := ListenerPc.admitting, handlers := 1 } Event.admission
      = { params := { dictPath := [], dict := { words := [] }, port := ANY_PORTNUM,
                      socketfd := 3, maxConnections := 1, currentNumConns := 1,
                      totalConns := 1 }
          listener := ListenerPc.admitting, handlers := 1 } :=
  (admission_guard
    { params := { dictPath := [], dict := { words := [] }, port := ANY_PORTNUM,
                  socketfd := 3, maxConnections := 1, currentNumConns := 1, totalConns := 1 }
      listener := ListenerPc.admitting, handlers := 1 } rfl).2.2.1 (by decide)

/-- C13 fails on the code.  In the job of `crack abhello...... 4` over the
dictionary `hello`, `world`, `secret`, `abc`, once worker 0 has taken its two
steps it has returned with `hello` in its slot: the join loop joins worker 0,
takes the result and leaves through `break`, so it makes one `pthread_join`
for four workers, and worker 1 has not returned when the shared data is freed
and the reply is given. -/
theorem crack_join_incomplete :
    ((crack_run toyHash "abhello......".toList "ab".toList
          ⟨["hello".toList, "world".toList, "secret".toList, "abc".toList]⟩ 4
          (crack_init ⟨["hello".toList, "world".toList, "secret".toList, "abc".toList]⟩ 4)
          [0, 0]).threadData 0)
        = { pc := Pc.done, result := some "hello".toList } ∧
      crack_joined (crack_run toyHash "abhello......".toList "ab".toList
          ⟨["hello".toList, "world".toList, "secret".toList, "abc".toList]⟩ 4
          (crack_init ⟨["hello".toList, "world".toList, "secret".toList, "abc".toList]⟩ 4)
          [0, 0]).threadData 4 0 = 1 ∧
      ((crack_run toyHash "abhello......".toList "ab".toList
          ⟨["hello".toList, "world".toList, "secret".toList, "abc".toList]⟩ 4
          (crack_init ⟨["hello".toList, "world".toList, "secret".toList, "abc".toList]⟩ 4)
          [0, 0]).threadData 1).pc ≠ Pc.done ∧
      crack_reply (crack_run toyHash "abhello......".toList "ab".toList
          ⟨["hello".toList, "world".toList, "secret".toList, "abc".toList]⟩ 4
          (crack_init ⟨["hello".toList, "world".toList, "secret".toList, "abc".toList]⟩ 4)
          [0, 0]).threadData 4 = "hello".toList := by
  decide

/-- C14 fails on the code: in the job of `crack zz.abc....... 1` over the
one-word dictionary `:abc`, the slot of worker 0 holds the word `:abc`, which
hashes to the target; the join loop passes over the slot, the word beginning
with `':'`, and the reply of the coordinator is `":failed\n"`. -/
theorem crack_reply_skips_word :
    ((crack_run toyHash "zz.abc.......".toList "zz".toList ⟨[":abc".toList]⟩ 1
          (crack_init ⟨[":abc".toList]⟩ 1) [0, 0]).threadData 0).result
        = some ":abc".toList ∧
      toyHash ":abc".toList "zz".toList = "zz.abc.......".toList ∧
      crack_joined (crack_run toyHash "zz.abc.......".toList "zz".toList ⟨[":abc".toList]⟩ 1
          (crack_init ⟨[":abc".toList]⟩ 1) [0, 0]).threadData 1 0 = 1 ∧
      crack_reply (crack_run toyHash "zz.abc.......".toList "zz".toList ⟨[":abc".toList]⟩ 1
          (crack_init ⟨[":abc".toList]⟩ 1) [0, 0]).threadData 1 = FAILED := by
  decide

/-- C15. For every sequence of lines read from the dictionary file (each
shorter than 2^31 characters, so that `int wordLen` holds its length), the
reading loop of process_dict builds exactly the lines of length 1 to 8, in
file order and with duplicates kept, and counts them in `numWords`; when there
is such a line, process_dict returns the dictionary made of them. -/
theorem process_dict_retains (fopen : CStr → Option (List CStr)) (dictPath : CStr)
    (lines : List CStr) (hopen : fopen dictPath = some lines)
    (hlen : ∀ l ∈ lines, l.length < 2 ^ 31) :
    process_dict_loop lines ([], 0)
        = (lines.filter (fun l => decide (1 ≤ l.length ∧ l.length ≤ 8)),
            (lines.filter (fun l => decide (1 ≤ l.length ∧ l.length ≤ 8))).length) ∧
      (lines.filter (fun l => decide (1 ≤ l.length ∧ l.length ≤ 8)) ≠ [] →
        process_dict fopen dictPath
          = Except.ok ⟨lines.filter (fun l => decide (1 ≤ l.length ∧ l.length ≤ 8))⟩) ∧
      ∀ dict, process_dict fopen dictPath = Except.ok dict →
        dict.words = lines.filter (fun l => decide (1 ≤ l.length ∧ l.length ≤ 8)) ∧
          dict.numWords
            = (lines.filter (fun l => decide (1 ≤ l.length ∧ l.length ≤ 8))).length := by
  have hloop := process_dict_loop_filter lines [] hlen
  simp only [List.length_nil, List.nil_append] at hloop
  have hdict := process_dict_of_lines fopen dictPath lines hopen hlen
  refine ⟨hloop, ?_, ?_⟩
  · intro hne
    rw [hdict, if_neg hne]
  · intro dict hok
    rw [hdict] at hok
    split_ifs at hok
    cases hok
    exact ⟨rfl, rfl⟩

/-- Witness of C15: a file with an empty line, a long line and a duplicate. -/
theorem process_dict_retains_witness :
    process_dict
        (fun _ => some ["hello".toList, [], "dictionary".toList, "hello".toList, "a".toList])
        DEFAULT_DICT
      = Except.ok ⟨["hello".toList, "hello".toList, "a".toList]⟩ :=
  (process_dict_retains
    (fun _ => some ["hello".toList, [], "dictionary".toList, "hello".toList, "a".toList])
    DEFAULT_DICT ["hello".toList, [], "dictionary".toList, "hello".toList, "a".toList] rfl
    (by decide)).2.1 (by decide)

/-- C16 fails on the code.  The command line `--port 4294968320` gives a port
outside `[1024, 65535]`, a usage error; `atoi` reads the argument as 1024, the
value modulo 2^32, so that initialise accepts it and main never exits with 1:
with a dictionary file that holds `hello` and a socket that opens, main goes on
to the accept loop with the port string `4294968320`, and whatever the file and
the socket, its exit code is not 1. -/
theorem main_port_overflow :
    is_digits "4294968320".toList = true ∧
      atoi_digits "4294968320".toList 0 = 4294968320 ∧
      atoi "4294968320".toList = 1024 ∧
      main [(PORT_ARG, "4294968320".toList)] [] (fun _ => some ["hello".toList]) (fun _ => 3)
        = Except.ok { dictPath := DEFAULT_DICT, dict := ⟨["hello".toList]⟩,
                      port := "4294968320".toList, socketfd := 3, maxConnections := 0,
                      currentNumConns := 0, totalConns := 0 } ∧
      ∀ (fopen : CStr → Option (List CStr)) (process_port : CStr → Int),
        main [(PORT_ARG, "4294968320".toList)] [] fopen process_port
          ≠ Except.error USAGE_ERR := by
  have hinit : initialise [(PORT_ARG, "4294968320".toList)] []
      = Except.ok { dictPath := DEFAULT_DICT, dict := ⟨[]⟩, port := "4294968320".toList,
                    socketfd := 0, maxConnections := 0, currentNumConns := 0,
                    totalConns := 0 } := rfl
  refine ⟨by decide, by decide, by decide, rfl, ?_⟩
  intro fopen process_port h
  simp only [main, hinit] at h
  cases hd : process_dict fopen DEFAULT_DICT with
  | error e =>
    rw [hd] at h
    simp only [Except.error.injEq] at h
    unfold process_dict at hd
    split at hd
    · simp only [Except.error.injEq] at hd
      rw [← hd] at h
      revert h
      decide
    · dsimp only at hd
      split_ifs at hd
      simp only [Except.error.injEq] at hd
      rw [← hd] at h
      revert h
      decide
  | ok dict =>
    rw [hd] at h
    simp only at h
    split_ifs at h
    simp only [Except.error.injEq] at h
    revert h
    decide

/-- C17 fails on the code.  For the command line `--port 4294968320`
initialise returns a configuration whose port is the string `4294968320`: it
is not the string `0`, and it is a decimal numeral whose value, 4294968320,
lies outside `[1024, 65535]`.  The argument is made of digits, and `atoi` reads
it as 1024, the value modulo 2^32, which passes the test of the range. -/
theorem initialise_port_overflow :
    initialise [(PORT_ARG, "4294968320".toList)] []
        = Except.ok { dictPath := DEFAULT_DICT, dict := ⟨[]⟩, port := "4294968320".toList,
                      socketfd := 0, maxConnections := 0, currentNumConns := 0,
                      totalConns := 0 } ∧
      "4294968320".toList ≠ ANY_PORTNUM ∧
      ¬ (1024 ≤ atoi_digits "4294968320".toList 0 ∧
          atoi_digits "4294968320".toList 0 ≤ 65535) ∧
      atoi "4294968320".toList = 1024 ∧
      MIN_PORTNUM ≤ atoi "4294968320".toList ∧ atoi "4294968320".toList ≤ MAX_PORTNUM :=
  ⟨rfl, by decide, by decide, by decide, by decide, by decide⟩

end CrackServer

namespace CrackClient

/-! ## The client -/

theorem process_command_sends_iff (line : List Char) :
    (process_command line).1 = true ↔ ¬ (line = [] ∨ line.head? = some '#') := by
  unfold process_command
  by_cases h1 : line.head? = some '#'
  · simp [h1]
  · rw [if_neg h1]
    by_cases h2 : line.length = 0
    · rw [if_pos h2]
      simp [List.length_eq_zero.mp h2]
    · rw [if_neg h2]
      have : line ≠ [] := fun h => h2 (by rw [h]; rfl)
      simp [this, h1]

theorem main_cons_skip (currentIn : List Char) (input fromSocket : List (List Char))
    (h : (process_command currentIn).1 = false) :
    main (currentIn :: input) fromSocket = main input fromSocket := by
  simp [main, h]

theorem main_cons_eof (currentIn : List Char) (input : List (List Char))
    (h : (process_command currentIn).1 = true) :
    main (currentIn :: input) []
      = { sent := [(process_command currentIn).2], printed := [],
          exitCode := CONNECTION_TERMINATED } := by
  simp [main, h]

theorem main_cons_reply (currentIn fromServer : List Char) (input more : List (List Char))
    (h : (process_command currentIn).1 = true) :
    main (currentIn :: input) (fromServer :: more)
      = { sent := (process_command currentIn).2 :: (main input more).sent
          printed := handle_server_output fromServer :: (main input more).printed
          exitCode := (main input more).exitCode } := by
  simp [main, h]

/-- The run of the client, by the number of lines to send and of lines the
server gives. -/
theorem client_outcome (input fromSocket : List (List Char)) :
    (fromSocket.length < (input.filter (fun l => (process_command l).1)).length →
        (main input fromSocket).exitCode = CONNECTION_TERMINATED ∧
          (main input fromSocket).sent.length = fromSocket.length + 1 ∧
          (main input fromSocket).printed.length = fromSocket.length) ∧
      (¬ fromSocket.length < (input.filter (fun l => (process_command l).1)).length →
        (main input fromSocket).exitCode = OK ∧
          (main input fromSocket).sent.length
            = (input.filter (fun l => (process_command l).1)).length ∧
          (main input fromSocket).printed.length
            = (input.filter (fun l => (process_command l).1)).length) := by
  induction input generalizing fromSocket with
  | nil =>
    simp [main]
  | cons l rest ih =>
    by_cases hs : (process_command l).1 = true
    · cases fromSocket with
      | nil =>
        rw [main_cons_eof l rest hs]
        simp [List.filter_cons, hs]
      | cons r more =>
        rw [main_cons_reply l r rest more hs]
        have := ih more
        simp only [List.filter_cons, hs, if_true, List.length_cons] at this ⊢
        constructor
        · intro h
          have h2 := this.1 (by omega)
          exact ⟨h2.1, by omega, by omega⟩
        · intro h
          have h2 := this.2 (by omega)
          exact ⟨h2.1, by omega, by omega⟩
    · have hs2 : (process_command l).1 = false := by simpa using hs
      rw [main_cons_skip l rest fromSocket hs2]
      simpa [List.filter_cons, hs2] using ih fromSocket

/-- C18. For every input line of the client, process_command returns false
exactly when the line is empty or begins with `'#'`, and main then sends
nothing for it; for every other line it returns true and the line sent is the
original line followed by one line feed. -/
theorem process_command_comment (line : List Char) :
    ((process_command line).1 = false ↔ (line = [] ∨ line.head? = some '#')) ∧
      ((line = [] ∨ line.head? = some '#') → ∀ fromSocket, (main [line] fromSocket).sent = []) ∧
      (¬ (line = [] ∨ line.head? = some '#') →
        (process_command line).1 = true ∧ (process_command line).2 = line ++ ['\n'] ∧
          ∀ fromSocket, (main [line] fromSocket).sent = [line ++ ['\n']]) := by
  have hiff := process_command_sends_iff line
  have hfalse : (process_command line).1 = false ↔ (line = [] ∨ line.head? = some '#') := by
    constructor
    · intro h
      by_contra hc
      rw [hiff.mpr hc] at h
      cases h
    · intro h
      cases hb : (process_command line).1 with
      | false => rfl
      | true => exact absurd h (hiff.mp hb)
  refine ⟨hfalse, ?_, ?_⟩
  · intro h fromSocket
    rw [main_cons_skip line [] fromSocket (hfalse.mpr h)]
    rfl
  · intro h
    have ht := hiff.mpr h
    have h2 : (process_command line).2 = line ++ ['\n'] := by
      push_neg at h
      unfold process_command
      rw [if_neg h.2, if_neg (fun hl => h.1 (List.length_eq_zero.mp hl))]
      rfl
    refine ⟨ht, h2, ?_⟩
    intro fromSocket
    cases fromSocket with
    | nil => rw [main_cons_eof line [] ht, h2]
    | cons r more =>
      rw [main_cons_reply line r [] more ht, h2]
      rfl

/-- Witness of C18: the line `crack x 1` is sent with its line feed. -/
theorem process_command_comment_witness :
    (process_command "crack x 1".toList).1 = true ∧
      (process_command "crack x 1".toList).2 = "crack x 1".toList ++ ['\n'] ∧
      ∀ fromSocket, (main ["crack x 1".toList] fromSocket).sent
        = ["crack x 1".toList ++ ['\n']] :=
  (process_command_comment "crack x 1".toList).2.2 (by decide)

/-- C19. For every line `r` read from the server, the client prints
`Error in command` if `r` is `:invalid`, `Unable to decrypt` if `r` is
`:failed`, and `r` itself otherwise, each followed by one line feed. -/
theorem handle_server_output_cases (r : List Char) :
    handle_server_output r =
      if r = ":invalid".toList then "Error in command".toList ++ ['\n']
      else if r = ":failed".toList then "Unable to decrypt".toList ++ ['\n']
      else r ++ ['\n'] := by
  have e1 : ":invalid\n".toList = ":invalid".toList ++ ['\n'] := rfl
  have e2 : ":failed\n".toList = ":failed".toList ++ ['\n'] := rfl
  unfold handle_server_output add_new_line
  simp only [e1, e2, List.append_left_inj]
  by_cases h1 : r = ":invalid".toList
  · rw [if_pos h1, if_pos h1.symm]
    rfl
  · rw [if_neg h1, if_neg (fun h => h1 h.symm)]
    by_cases h2 : r = ":failed".toList
    · rw [if_pos h2, if_pos h2.symm]
      rfl
    · rw [if_neg h2, if_neg (fun h => h2 h.symm)]

/-- C20. For every sequence of input lines and every sequence of lines the
server gives before it closes the connection, the client exits with code 4
exactly when a command it has sent finds the server's stream at its end (the
lines to send outnumber the lines the server gives: one command more than
responses has then been sent); otherwise the input ends first and the client
exits with code 0, having sent every command and printed a line for each. -/
theorem client_exit_code (input fromSocket : List (List Char)) :
    ((main input fromSocket).exitCode = CONNECTION_TERMINATED ↔
        fromSocket.length < (input.filter (fun l => (process_command l).1)).length) ∧
      ((main input fromSocket).exitCode = CONNECTION_TERMINATED →
        (main input fromSocket).sent.length = fromSocket.length + 1 ∧
          (main input fromSocket).printed.length = fromSocket.length) ∧
      (¬ fromSocket.length < (input.filter (fun l => (process_command l).1)).length →
        (main input fromSocket).exitCode = OK ∧
          (main input fromSocket).sent.length
            = (input.filter (fun l => (process_command l).1)).length ∧
          (main input fromSocket).printed.length
            = (input.filter (fun l => (process_command l).1)).length) := by
  have h := client_outcome input fromSocket
  have hiff : (main input fromSocket).exitCode = CONNECTION_TERMINATED ↔
      fromSocket.length < (input.filter (fun l => (process_command l).1)).length := by
    constructor
    · intro he
      by_contra hc
      rw [(h.2 hc).1] at he
      cases he
    · intro hc
      exact (h.1 hc).1
  exact ⟨hiff, fun he => (h.1 (hiff.mp he)).2, h.2⟩

/-- Witness of C20: two commands and a comment, the server giving one line. -/
theorem client_exit_code_witness :
    (main ["crypt a ab".toList, "# note".toList, "crack x 1".toList]
        [":invalid".toList]).sent.length = 2 ∧
      (main ["crypt a ab".toList, "# note".toList, "crack x 1".toList]
        [":invalid".toList]).printed.length = 1 :=
  (client_exit_code ["crypt a ab".toList, "# note".toList, "crack x 1".toList]
    [":invalid".toList]).2.1 (by decide)

end CrackClient

namespace CrackServer

/-! ## One worker, step by step -/

section Worker

variable (H : CStr → CStr → CStr) (encrypted salt : CStr) (dict : Dictionary) (n : Nat)

theorem crack_run_snoc (job : CrackJob) (sched : List Nat) (t : Nat) :
    crack_run H encrypted salt dict n job (sched ++ [t])
      = crack_step H encrypted salt dict n (crack_run H encrypted salt dict n job sched) t := by
  rw [crack_run_append]
  rfl

/-- A step of a worker changes the flag only from false to true, and then the
worker was about to hash a word that matches and now holds it. -/
theorem crack_step_flag_set (job : CrackJob) (t : Nat)
    (h0 : job.stopFlag = false)
    (h1 : (crack_step H encrypted salt dict n job t).stopFlag = true) :
    t < n ∧ ∃ i, (job.threadData t).pc = Pc.hash i ∧
      H (dict.words.getD i []) salt = encrypted ∧
      (crack_step H encrypted salt dict n job t).threadData t
        = { pc := Pc.done, result := some (dict.words.getD i []) } := by
  by_cases ht : t < n
  swap
  · unfold crack_step at h1
    rw [if_neg ht, h0] at h1
    cases h1
  refine ⟨ht, ?_⟩
  unfold crack_step at h1 ⊢
  simp only [if_pos ht, if_true] at h1 ⊢
  unfold crack_thread_step at h1 ⊢
  cases hpc : (job.threadData t).pc with
  | test i =>
    simp only [hpc, h0] at h1
    split_ifs at h1
  | hash i =>
    simp only [hpc, h0] at h1 ⊢
    by_cases hm : H (dict.words.getD i []) salt = encrypted
    · exact ⟨i, rfl, hm, by rw [if_pos hm]⟩
    · rw [if_neg hm] at h1
      cases h1
  | done =>
    simp only [hpc, h0] at h1
    cases h1

theorem crack_run_flag (sched : List Nat) (job : CrackJob) (h : job.stopFlag = true) :
    (crack_run H encrypted salt dict n job sched).stopFlag = true := by
  induction sched generalizing job with
  | nil => exact h
  | cons t rest ih =>
    exact ih _ (crack_step_flag H encrypted salt dict n job t h)

end Worker

/-! ## The sizes asked of realloc -/

theorem process_dict_stores_cons (l : CStr) (more : List CStr) (k : Nat) :
    process_dict_stores (l :: more) k =
      if toInt32 (strlen l) > (MAX_WORD_LEN : Int) ∨ toInt32 (strlen l) = 0 then
        process_dict_stores more k
      else (k, SIZEOF_CHAR_PTR * k + 1) :: process_dict_stores more (k + 1) := rfl

/-- Every store of the reading loop comes after a request of
`sizeof(char*) * index + 1` bytes. -/
theorem process_dict_stores_size (lines : List CStr) (k : Nat) :
    ∀ store ∈ process_dict_stores lines k, store.2 = SIZEOF_CHAR_PTR * store.1 + 1 := by
  induction lines generalizing k with
  | nil =>
    intro store h
    cases h
  | cons l more ih =>
    intro store h
    rw [process_dict_stores_cons] at h
    split_ifs at h
    · exact ih k store h
    · rcases List.mem_cons.mp h with rfl | h
      · rfl
      · exact ih (k + 1) store h

/-! ## A worker scanning alone -/

section Scan

variable (H : CStr → CStr → CStr) (encrypted salt : CStr) (dict : Dictionary) (n : Nat)

end Scan

/-! ## The claims on the worker, the stop flag, the responses and the sizes -/

/-- C23. The stop flag of a crack job is monotonic: it starts false; every step
of every worker leaves it unchanged or sets it to true; once it is true it is
true after every further sequence of steps; and a step sets it only when the
stepping worker has hashed a word whose hash equals the target, which it then
holds in its result slot. -/
theorem stopFlag_monotonic (H : CStr → CStr → CStr) (encrypted salt : CStr)
    (dict : Dictionary) (n : Nat) :
    (crack_init dict n).stopFlag = false ∧
      (∀ job t, (crack_step H encrypted salt dict n job t).stopFlag = job.stopFlag ∨
        (crack_step H encrypted salt dict n job t).stopFlag = true) ∧
      (∀ job sched, job.stopFlag = true →
        (crack_run H encrypted salt dict n job sched).stopFlag = true) ∧
      (∀ job t, job.stopFlag = false →
        (crack_step H encrypted salt dict n job t).stopFlag = true →
        t < n ∧ ∃ i, (job.threadData t).pc = Pc.hash i ∧
          H (dict.words.getD i []) salt = encrypted ∧
          (crack_step H encrypted salt dict n job t).threadData t
            = { pc := Pc.done, result := some (dict.words.getD i []) }) := by
  refine ⟨rfl, ?_, ?_, ?_⟩
  · intro job t
    cases hf : job.stopFlag with
    | true => exact Or.inr (crack_step_flag H encrypted salt dict n job t hf)
    | false =>
      cases hs : (crack_step H encrypted salt dict n job t).stopFlag with
      | true => exact Or.inr rfl
      | false => exact Or.inl rfl
  · intro job sched h
    exact crack_run_flag H encrypted salt dict n sched job h
  · intro job t h0 h1
    exact crack_step_flag_set H encrypted salt dict n job t h0 h1

/-- Witness of C23: in the job of `crack abhello...... 2` the flag is false
after one step of worker 0 and true after its second step, and stays true. -/
theorem stopFlag_monotonic_witness :
    (crack_run toyHash "abhello......".toList "ab".toList
        ⟨["hello".toList, "world".toList]⟩ 2
        (crack_run toyHash "abhello......".toList "ab".toList
          ⟨["hello".toList, "world".toList]⟩ 2
          (crack_init ⟨["hello".toList, "world".toList]⟩ 2) [0, 0])
        [1, 1, 0]).stopFlag = true :=
  (stopFlag_monotonic toyHash "abhello......".toList "ab".toList
    ⟨["hello".toList, "world".toList]⟩ 2).2.2.1 _ [1, 1, 0] (by decide)

/-- C28 fails on the code.  For the dictionary file with the lines `hello` and
`a`, the store of word 0 follows a request of 1 byte and the store of word 1 a
request of 9 bytes, where 8 and 16 bytes are needed; and for every file, the
store at index `k` follows a request of `sizeof(char*) * k + 1` bytes, less
than `sizeof(char*) * (k + 1)`. -/
theorem process_dict_realloc_short :
    process_dict_stores ["hello".toList, "a".toList] 0 = [(0, 1), (1, 9)] ∧
      ∀ (lines : List CStr) (numWords : Nat), ∀ store ∈ process_dict_stores lines numWords,
        store.2 = SIZEOF_CHAR_PTR * store.1 + 1 ∧
          store.2 < SIZEOF_CHAR_PTR * (store.1 + 1) := by
  refine ⟨by decide, ?_⟩
  intro lines numWords store h
  have := process_dict_stores_size lines numWords store h
  refine ⟨this, ?_⟩
  rw [this]
  unfold SIZEOF_CHAR_PTR
  omega

/-- C29. For every dictionary size `M` and thread count `n ≥ 1`, every worker
but the last has a slice of `M / n` words and the last worker a slice of
`M / n + M % n` words; when `n > M` every worker but the last has an empty
slice and the slice of the last worker is the whole dictionary. -/
theorem crack_thread_slice_sizes (M n i : Nat) (hn : 1 ≤ n) :
    (i + 1 < n → crack_thread_end M n i - crack_thread_start M n i = M / n) ∧
      (i + 1 = n →
        crack_thread_end M n i - crack_thread_start M n i = M / n + M % n) ∧
      (M < n →
        (i + 1 < n → crack_thread_start M n i = crack_thread_end M n i) ∧
        (i + 1 = n → crack_thread_start M n i = 0 ∧ crack_thread_end M n i = M)) := by
  have hdiv : n * (M / n) + M % n = M := Nat.div_add_mod M n
  refine ⟨?_, ?_, ?_⟩
  · intro hi
    unfold crack_thread_start crack_thread_end
    rw [if_neg (by omega), Nat.add_mul, Nat.one_mul]
    exact Nat.add_sub_cancel_left _ _
  · intro hi
    unfold crack_thread_start crack_thread_end
    rw [if_pos hi]
    subst hi
    rw [Nat.add_mul, Nat.one_mul] at hdiv
    generalize M / (i + 1) = q at hdiv ⊢
    generalize M % (i + 1) = r at hdiv ⊢
    generalize i * q = p at hdiv ⊢
    omega
  · intro hM
    have hq : M / n = 0 := Nat.div_eq_of_lt hM
    unfold crack_thread_start crack_thread_end
    rw [hq]
    refine ⟨fun hi => ?_, fun hi => ?_⟩
    · rw [if_neg (by omega)]
      simp
    · rw [if_pos hi]
      exact ⟨by simp, rfl⟩

/-- Witness of C29: 10 words and 4 threads, the last slice holds 4 words. -/
theorem crack_thread_slice_sizes_witness :
    crack_thread_end 10 4 3 - crack_thread_start 10 4 3 = 10 / 4 + 10 % 4 :=
  (crack_thread_slice_sizes 10 4 3 (by decide)).2.1 (by decide)

/-- C24 as stated fails: the request line `bogus` is answered by do_command
with `":invalid\n"`, which ends with a line feed, whatever lies past the array
of its one field, and client_thread writes it as it is. -/
theorem do_command_newline_counterexample :
    do_command toyHash "bogus".toList ⟨["hello".toList]⟩ [] none = some INVALID ∧
      do_command toyHash "bogus".toList ⟨["hello".toList]⟩ [] (some "7".toList)
        = some INVALID ∧
      INVALID.getLast? = some '\n' ∧
      client_thread toyHash ⟨["hello".toList]⟩ [("bogus".toList, [], none)]
        = some [INVALID] := by
  decide

/-- C24, amended. Let `H` give, for a valid salt, a string that begins with
the salt and holds no line feed, and let no word of the dictionary hold a line
feed.  For every request line, a response of do_command that begins with `':'`
is `":invalid\n"` or `":failed\n"`, it ends with its line feed, and
client_thread writes it as it is; every other response holds no line feed, and
client_thread writes it followed by one line feed.  The response is defined
except, at most, for the lines `crack` and `crypt` when the slot read past the
array of their one field is not NULL. -/
theorem do_command_newline (H : CStr → CStr → CStr) (dict : Dictionary)
    (hH : ∀ p s : CStr, s.length = 2 → (∀ c ∈ s, c ∈ PLAINTEXT_CHARS) →
      (H p s).take 2 = s ∧ '\n' ∉ H p s)
    (hdict : ∀ w ∈ dict.words, '\n' ∉ w)
    (command : CStr) (sched : List Nat) (beyond : Option CStr) :
    (do_command H command dict sched beyond = none →
        (command = "crack".toList ∨ command = "crypt".toList) ∧ beyond ≠ none) ∧
      ∀ response, do_command H command dict sched beyond = some response →
        (response.head? = some ':' →
          (response = INVALID ∨ response = FAILED) ∧
          response.getLast? = some '\n' ∧
          client_thread H dict [(command, sched, beyond)] = some [response]) ∧
        (response.head? ≠ some ':' →
          '\n' ∉ response ∧
          client_thread H dict [(command, sched, beyond)] = some [response ++ ['\n']]) := by
  have hw : ∀ response, do_command H command dict sched beyond = some response →
      client_thread H dict [(command, sched, beyond)]
        = some [if response.head? ≠ some ':' then add_new_line response else response] := by
    intro response hresp
    rw [client_thread_cons, hresp]
    rfl
  have key := do_command_cases H (fun p s h1 h2 => (hH p s h1 h2).1) command dict sched beyond
  refine ⟨?_, ?_⟩
  · intro hnone
    rcases key with ⟨_, h⟩ | ⟨r, hr, _⟩
    · exact h
    · rw [hnone] at hr
      cases hr
  · intro response hresp
    rcases key with ⟨hnone, _⟩ | ⟨r, hr, hcases⟩
    · rw [hnone] at hresp
      cases hresp
    rw [hresp] at hr
    cases hr
    have hwr := hw response hresp
    rcases hcases with h | h | ⟨hhead, a1, a2, h | h⟩
    · refine ⟨fun _ => ⟨Or.inl h, ?_, ?_⟩, fun hc => ?_⟩
      · rw [h]; rfl
      · rw [hwr, h]; rfl
      · rw [h] at hc
        exact absurd rfl hc
    · refine ⟨fun _ => ⟨Or.inr h, ?_, ?_⟩, fun hc => ?_⟩
      · rw [h]; rfl
      · rw [hwr, h]; rfl
      · rw [h] at hc
        exact absurd rfl hc
    · refine ⟨fun hc => absurd hc hhead, fun _ => ⟨?_, ?_⟩⟩
      · rw [h.2.2.2]
        exact (hH a1 a2 h.2.1 h.2.2.1).2
      · rw [hwr, if_pos hhead]
        rfl
    · refine ⟨fun hc => absurd hc hhead, fun _ => ⟨hdict _ h.2.1, ?_⟩⟩
      rw [hwr, if_pos hhead]
      rfl

/-- Witness of C24 amended: the response to `crypt hello ab`. -/
theorem do_command_newline_witness :
    do_command toyHash "crypt hello ab".toList ⟨["hello".toList]⟩ [] none
        = some "abhello......".toList ∧
      '\n' ∉ "abhello......".toList ∧
      client_thread toyHash ⟨["hello".toList]⟩ [("crypt hello ab".toList, [], none)]
        = some ["abhello......".toList ++ ['\n']] :=
  ⟨by decide,
    ((do_command_newline toyHash ⟨["hello".toList]⟩
      (fun p s hs hall => ⟨toyHash_salt p s hs,
        fun h => newline_not_plaintext (toyHash_alphabet p s hall _ h)⟩)
      (by decide) "crypt hello ab".toList [] none).2 "abhello......".toList
      (by decide)).2 (by decide)⟩

end CrackServer

namespace UqWordiplySolution

/-! ## The longest words of a list -/

theorem find_longest_words_loop_cons (word : List Char) (more : List (List Char))
    (maxLen : Int) (longestWords : WordList) :
    find_longest_words_loop (word :: more) maxLen longestWords =
      if CrackServer.toInt32 word.length = maxLen then
        find_longest_words_loop more maxLen (add_word_to_list longestWords word)
      else if CrackServer.toInt32 word.length > maxLen then
        find_longest_words_loop more (CrackServer.toInt32 word.length)
          (add_word_to_list { numWords := 0, wordArray := [] } word)
      else find_longest_words_loop more maxLen longestWords := rfl

theorem add_word_to_list_full (acc : List (List Char)) (word : List Char) :
    add_word_to_list { numWords := acc.length, wordArray := acc } word
      = { numWords := (acc ++ [word]).length, wordArray := acc ++ [word] } := by
  simp [add_word_to_list]

/-- The loop, from a list `acc` of words of length `m` and the maximum `m`,
ends with the words of `acc` and of the rest that have the greatest length. -/
theorem find_longest_words_loop_filter (rest acc : List (List Char)) (m : Nat)
    (hacc : ∀ w ∈ acc, w.length = m) (hlen : ∀ w ∈ rest, w.length < 2 ^ 31) :
    find_longest_words_loop rest (m : Int) { numWords := acc.length, wordArray := acc }
      = { numWords := ((acc ++ rest).filter (fun w =>
            decide (w.length = max m ((rest.map List.length).foldr max 0)))).length
          wordArray := (acc ++ rest).filter (fun w =>
            decide (w.length = max m ((rest.map List.length).foldr max 0))) } := by
  induction rest generalizing acc m with
  | nil =>
    have hfil : acc.filter (fun w => decide (w.length = max m 0)) = acc := by
      rw [List.filter_eq_self]
      intro w hw
      simp [hacc w hw]
    simp only [find_longest_words_loop, List.append_nil, List.map_nil, List.foldr_nil, hfil]
  | cons w rest ih =>
    have hw := hlen w (List.mem_cons_self _ _)
    have hrest : ∀ x ∈ rest, x.length < 2 ^ 31 := fun x hx => hlen x (List.mem_cons_of_mem _ hx)
    rw [find_longest_words_loop_cons, CrackServer.toInt32_of_lt w.length hw]
    simp only [List.map_cons, List.foldr_cons]
    by_cases h1 : w.length = m
    · rw [if_pos (by exact_mod_cast h1), add_word_to_list_full]
      have := ih (acc ++ [w]) m (by
        intro x hx
        rcases List.mem_append.mp hx with hx | hx
        · exact hacc x hx
        · rw [List.mem_singleton.mp hx]; exact h1) hrest
      rw [this]
      have e1 : max m (max w.length ((rest.map List.length).foldr max 0)) = max m ((rest.map List.length).foldr max 0) := by omega
      simp only [e1, List.append_assoc, List.singleton_append]
    · rw [if_neg (by exact_mod_cast h1)]
      by_cases h2 : w.length > m
      · rw [if_pos (by exact_mod_cast h2)]
        have hadd : add_word_to_list { numWords := 0, wordArray := [] } w
            = { numWords := ([w] : List (List Char)).length, wordArray := [w] } := rfl
        rw [hadd, ih [w] w.length (by
          intro x hx
          rw [List.mem_singleton.mp hx]) hrest]
        have e1 : max m (max w.length ((rest.map List.length).foldr max 0)) = max w.length ((rest.map List.length).foldr max 0) := by omega
        have hfil : acc.filter (fun x => decide (x.length = max w.length ((rest.map List.length).foldr max 0))) = [] := by
          rw [List.filter_eq_nil_iff]
          intro x hx
          have := hacc x hx
          simp only [decide_eq_true_eq]
          omega
        simp only [e1, List.filter_append, hfil, List.nil_append]
        have hsplit : w :: rest = [w] ++ rest := rfl
        rw [hsplit]
        simp only [List.filter_append]
      · rw [if_neg (by exact_mod_cast h2), ih acc m hacc hrest]
        have e1 : max m (max w.length ((rest.map List.length).foldr max 0)) = max m ((rest.map List.length).foldr max 0) := by omega
        have hne : ¬ (w.length = max m ((rest.map List.length).foldr max 0)) := by omega
        simp only [e1, List.filter_append, List.filter_cons, hne, decide_False,
          Bool.false_eq_true, if_false]

/-! ## The checks of a guess -/

theorem word_contains_only_letters_iff (word : List Char) :
    word_contains_only_letters word = true ↔ ∀ c ∈ word, isalpha c = true := by
  induction word with
  | nil => simp [word_contains_only_letters]
  | cons c cs ih =>
    unfold word_contains_only_letters
    cases hc : isalpha c with
    | false => simp [hc]
    | true => simp [hc, ih]

theorem starts_with_iff (hay needle : List Char) :
    starts_with hay needle = true ↔ ∃ post, hay = needle ++ post := by
  induction hay generalizing needle with
  | nil =>
    cases needle with
    | nil => simp [starts_with]
    | cons n ns => simp [starts_with]
  | cons h hs ih =>
    cases needle with
    | nil => simp [starts_with]
    | cons n ns =>
      simp only [starts_with, Bool.and_eq_true, beq_iff_eq, ih, List.cons_append,
        List.cons.injEq]
      constructor
      · rintro ⟨rfl, post, rfl⟩
        exact ⟨post, rfl, rfl⟩
      · rintro ⟨post, rfl, rfl⟩
        exact ⟨rfl, post, rfl⟩

theorem strstr_isSome_iff (hay needle : List Char) :
    (strstr hay needle).isSome = true ↔ ∃ pre post, hay = pre ++ needle ++ post := by
  induction hay with
  | nil =>
    unfold strstr
    by_cases h : starts_with [] needle = true
    · rw [if_pos h]
      obtain ⟨post, hp⟩ := (starts_with_iff [] needle).mp h
      exact ⟨fun _ => ⟨[], post, by simpa using hp⟩, fun _ => rfl⟩
    · rw [if_neg h]
      constructor
      · intro hc
        cases hc
      · rintro ⟨pre, post, hp⟩
        have hn : needle = [] := by
          have := congrArg List.length hp
          simp only [List.length_nil, List.length_append] at this
          exact List.length_eq_zero.mp (by omega)
        subst hn
        exact absurd rfl h
  | cons x xs ih =>
    unfold strstr
    by_cases h : starts_with (x :: xs) needle = true
    · rw [if_pos h]
      obtain ⟨post, hp⟩ := (starts_with_iff (x :: xs) needle).mp h
      exact ⟨fun _ => ⟨[], post, by simpa using hp⟩, fun _ => rfl⟩
    · rw [if_neg h, ih]
      constructor
      · rintro ⟨pre, post, hp⟩
        exact ⟨x :: pre, post, by rw [hp]; rfl⟩
      · rintro ⟨pre, post, hp⟩
        cases pre with
        | nil =>
          exact absurd ((starts_with_iff (x :: xs) needle).mpr ⟨post, by simpa using hp⟩) h
        | cons p ps =>
          simp only [List.cons_append, List.cons.injEq] at hp
          exact ⟨ps, post, hp.2⟩

theorem is_word_in_entries_iff (word : List Char) (entries : List (List Char)) :
    is_word_in_entries word entries = true ↔ word ∈ entries := by
  induction entries with
  | nil => simp [is_word_in_entries]
  | cons e more ih =>
    unfold is_word_in_entries
    by_cases h : e = word
    · simp [h]
    · rw [if_neg h, ih]
      have h2 : word ≠ e := fun hc => h hc.symm
      simp [h2]

set_option maxRecDepth 100000 in
theorem tolower_upper_nat : ∀ k, k < 91 → 65 ≤ k → (Char.ofNat (k + 32)).toNat ≠ 0 := by
  decide

theorem tolower_ne_zero (c : Char) (h : isalpha c = true) : (tolower c).toNat ≠ 0 := by
  unfold tolower
  unfold isalpha at h
  simp only [Bool.or_eq_true, Bool.and_eq_true, decide_eq_true_eq] at h
  split
  · rename_i hu
    exact tolower_upper_nat c.toNat (by omega) hu.1
  · omega

theorem strcasecmp_self (a : List Char) : strcasecmp a a = 0 := by
  induction a with
  | nil => rfl
  | cons x xs ih =>
    unfold strcasecmp
    rw [if_pos rfl, ih]

theorem strcasecmp_length (a b : List Char) (ha : ∀ c ∈ a, isalpha c = true)
    (hb : ∀ c ∈ b, isalpha c = true) (h : strcasecmp a b = 0) : a.length = b.length := by
  induction a generalizing b with
  | nil =>
    cases b with
    | nil => rfl
    | cons y ys =>
      unfold strcasecmp at h
      have := tolower_ne_zero y (hb y (List.mem_cons_self _ _))
      omega
  | cons x xs ih =>
    cases b with
    | nil =>
      unfold strcasecmp at h
      have := tolower_ne_zero x (ha x (List.mem_cons_self _ _))
      omega
    | cons y ys =>
      unfold strcasecmp at h
      by_cases hxy : tolower x = tolower y
      · rw [if_pos hxy] at h
        have := ih ys (fun c hc => ha c (List.mem_cons_of_mem _ hc))
          (fun c hc => hb c (List.mem_cons_of_mem _ hc)) h
        simp only [List.length_cons, this]
      · rw [if_neg hxy] at h
        exfalso
        apply hxy
        have h2 : (tolower x).toNat = (tolower y).toNat := by omega
        exact Char.ext (UInt32.ext (by simpa [Char.toNat] using h2))

/-- For a guess made of letters that contains the starter word, `strcasecmp`
gives 0 exactly when the guess is the starter word. -/
theorem strcasecmp_zero_iff (guess starterWord : List Char)
    (hl : ∀ c ∈ guess, isalpha c = true)
    (hc : ∃ pre post, guess = pre ++ starterWord ++ post) :
    strcasecmp guess starterWord = 0 ↔ guess = starterWord := by
  constructor
  · intro h
    obtain ⟨pre, post, hp⟩ := hc
    have hs : ∀ c ∈ starterWord, isalpha c = true := by
      intro c hcs
      exact hl c (by rw [hp]; simp [hcs])
    have hlen := strcasecmp_length guess starterWord hl hs h
    rw [hp] at hlen
    simp only [List.length_append] at hlen
    have h1 : pre = [] := List.length_eq_zero.mp (by omega)
    have h2 : post = [] := List.length_eq_zero.mp (by omega)
    rw [hp, h1, h2]
    simp
  · intro h
    rw [h]
    exact strcasecmp_self starterWord

end UqWordiplySolution

namespace UqWordiplySolution

/-- C25: for every list of words (each shorter than 2^31 characters, the range
of `int wordLen`), `find_longest_words_in_list` returns exactly the words whose
length is the greatest length in the list, in their order and with
repetitions, and `numWords` counts them; for the empty list it returns the
empty list. -/
theorem find_longest_words_in_list_max (words : WordList)
    (hlen : ∀ w ∈ words.wordArray.take words.numWords, w.length < 2 ^ 31) :
    (find_longest_words_in_list words).wordArray =
      (words.wordArray.take words.numWords).filter (fun w =>
        decide (w.length =
          ((words.wordArray.take words.numWords).map List.length).foldr max 0)) ∧
    (find_longest_words_in_list words).numWords =
      (find_longest_words_in_list words).wordArray.length ∧
    find_longest_words_in_list { numWords := 0, wordArray := [] } =
      { numWords := 0, wordArray := [] } := by
  have h := find_longest_words_loop_filter (words.wordArray.take words.numWords) [] 0
    (by intro w hw; cases hw) hlen
  simp only [List.length_nil, List.nil_append, Nat.cast_zero, Nat.zero_max] at h
  unfold find_longest_words_in_list
  rw [h]
  exact ⟨by simp, by simp, rfl⟩

theorem find_longest_words_in_list_max_witness :
    (∀ w ∈ (["AB".toList, "".toList, "ABC".toList, "X".toList, "XYZ".toList, "ABC".toList] :
        List (List Char)).take 6, w.length < 2 ^ 31) ∧
    (find_longest_words_in_list { numWords := 6, wordArray :=
        ["AB".toList, "".toList, "ABC".toList, "X".toList, "XYZ".toList, "ABC".toList] }).wordArray
      = ["ABC".toList, "XYZ".toList, "ABC".toList] :=
  ⟨by decide, by
    rw [(find_longest_words_in_list_max { numWords := 6, wordArray :=
        ["AB".toList, "".toList, "ABC".toList, "X".toList, "XYZ".toList, "ABC".toList] }
      (by decide)).1]
    decide⟩

/-- C26: for every guess, starter word, dictionary and list of previous
guesses, `check_guess` returns true if and only if the guess contains only
letters, contains the starter word, is not the starter word, is in the
dictionary and is not among the previous guesses; and the message printed is
the one of the first of these conditions that fails, none when all hold. -/
theorem check_guess_conditions (guess starterWord : List Char)
    (validWords previousGuesses : WordList) :
    ((check_guess guess starterWord validWords previousGuesses).1 = true ↔
      ((∀ c ∈ guess, isalpha c = true) ∧
        (∃ pre post, guess = pre ++ starterWord ++ post) ∧
        guess ≠ starterWord ∧
        guess ∈ validWords.wordArray.take validWords.numWords ∧
        guess ∉ previousGuesses.wordArray.take previousGuesses.numWords)) ∧
    (¬ (∀ c ∈ guess, isalpha c = true) →
      check_guess guess starterWord validWords previousGuesses =
        (false, some "Guesses must contain only letters - try again.\n".toList)) ∧
    ((∀ c ∈ guess, isalpha c = true) →
      ¬ (∃ pre post, guess = pre ++ starterWord ++ post) →
      check_guess guess starterWord validWords previousGuesses =
        (false, some "Guesses must contain the starter word - try again.\n".toList)) ∧
    ((∀ c ∈ guess, isalpha c = true) →
      (∃ pre post, guess = pre ++ starterWord ++ post) →
      guess = starterWord →
      check_guess guess starterWord validWords previousGuesses =
        (false, some "Guesses can't be the starter word - try again.\n".toList)) ∧
    ((∀ c ∈ guess, isalpha c = true) →
      (∃ pre post, guess = pre ++ starterWord ++ post) →
      guess ≠ starterWord →
      guess ∉ validWords.wordArray.take validWords.numWords →
      check_guess guess starterWord validWords previousGuesses =
        (false, some "Guess not found in dictionary - try again.\n".toList)) ∧
    ((∀ c ∈ guess, isalpha c = true) →
      (∃ pre post, guess = pre ++ starterWord ++ post) →
      guess ≠ starterWord →
      guess ∈ validWords.wordArray.take validWords.numWords →
      guess ∈ previousGuesses.wordArray.take previousGuesses.numWords →
      check_guess guess starterWord validWords previousGuesses =
        (false, some "You've already guessed that word - try again.\n".toList)) ∧
    ((∀ c ∈ guess, isalpha c = true) →
      (∃ pre post, guess = pre ++ starterWord ++ post) →
      guess ≠ starterWord →
      guess ∈ validWords.wordArray.take validWords.numWords →
      guess ∉ previousGuesses.wordArray.take previousGuesses.numWords →
      check_guess guess starterWord validWords previousGuesses = (true, none)) := by
  have hL := word_contains_only_letters_iff guess
  have hC := strstr_isSome_iff guess starterWord
  have hV := is_word_in_entries_iff guess (validWords.wordArray.take validWords.numWords)
  have hP := is_word_in_entries_iff guess
    (previousGuesses.wordArray.take previousGuesses.numWords)
  by_cases h1 : word_contains_only_letters guess = true
  · have a1 := hL.mp h1
    by_cases h2 : (strstr guess starterWord).isSome = true
    · have a2 := hC.mp h2
      have hS := strcasecmp_zero_iff guess starterWord a1 a2
      by_cases h3 : strcasecmp guess starterWord = 0
      · have a3 := hS.mp h3
        have hv : check_guess guess starterWord validWords previousGuesses =
            (false, some "Guesses can't be the starter word - try again.\n".toList) := by
          simp [check_guess, word_contains, h1, h2, h3]
        rw [hv]
        refine ⟨⟨fun h => by simp at h, fun h => absurd a3 h.2.2.1⟩, fun h => absurd a1 h,
          fun _ h => absurd a2 h, fun _ _ _ => rfl, fun _ _ h => absurd a3 h,
          fun _ _ h => absurd a3 h, fun _ _ h => absurd a3 h⟩
      · have a3 : guess ≠ starterWord := fun hc => h3 (hS.mpr hc)
        by_cases h4 : is_word_in_entries guess
            (validWords.wordArray.take validWords.numWords) = true
        · have a4 := hV.mp h4
          by_cases h5 : is_word_in_entries guess
              (previousGuesses.wordArray.take previousGuesses.numWords) = true
          · have a5 := hP.mp h5
            have hv : check_guess guess starterWord validWords previousGuesses =
                (false, some "You've already guessed that word - try again.\n".toList) := by
              simp [check_guess, word_contains, is_word_in_list, h1, h2, h3, h4, h5]
            rw [hv]
            refine ⟨⟨fun h => by simp at h, fun h => absurd a5 h.2.2.2.2⟩, fun h => absurd a1 h,
              fun _ h => absurd a2 h, fun _ _ h => absurd h a3, fun _ _ _ h => absurd a4 h,
              fun _ _ _ _ _ => rfl, fun _ _ _ _ h => absurd a5 h⟩
          · have a5 : guess ∉ previousGuesses.wordArray.take previousGuesses.numWords :=
              fun hc => h5 (hP.mpr hc)
            have hv : check_guess guess starterWord validWords previousGuesses =
                (true, none) := by
              simp [check_guess, word_contains, is_word_in_list, h1, h2, h3, h4, h5]
            rw [hv]
            refine ⟨⟨fun _ => ⟨a1, a2, a3, a4, a5⟩, fun _ => rfl⟩, fun h => absurd a1 h,
              fun _ h => absurd a2 h, fun _ _ h => absurd h a3, fun _ _ _ h => absurd a4 h,
              fun _ _ _ _ h => absurd h a5, fun _ _ _ _ _ => rfl⟩
        · have a4 : guess ∉ validWords.wordArray.take validWords.numWords :=
            fun hc => h4 (hV.mpr hc)
          have hv : check_guess guess starterWord validWords previousGuesses =
              (false, some "Guess not found in dictionary - try again.\n".toList) := by
            simp [check_guess, word_contains, is_word_in_list, h1, h2, h3, h4]
          rw [hv]
          refine ⟨⟨fun h => by simp at h, fun h => absurd h.2.2.2.1 a4⟩, fun h => absurd a1 h,
            fun _ h => absurd a2 h, fun _ _ h => absurd h a3, fun _ _ _ _ => rfl,
            fun _ _ _ h => absurd h a4, fun _ _ _ h => absurd h a4⟩
    · have a2 : ¬ (∃ pre post, guess = pre ++ starterWord ++ post) :=
        fun hc => h2 (hC.mpr hc)
      have hv : check_guess guess starterWord validWords previousGuesses =
          (false, some "Guesses must contain the starter word - try again.\n".toList) := by
        simp [check_guess, word_contains, h1, h2]
      rw [hv]
      refine ⟨⟨fun h => by simp at h, fun h => absurd h.2.1 a2⟩, fun h => absurd a1 h,
        fun _ _ => rfl, fun _ h => absurd h a2, fun _ h => absurd h a2,
        fun _ h => absurd h a2, fun _ h => absurd h a2⟩
  · have a1 : ¬ (∀ c ∈ guess, isalpha c = true) := fun hc => h1 (hL.mpr hc)
    have hv : check_guess guess starterWord validWords previousGuesses =
        (false, some "Guesses must contain only letters - try again.\n".toList) := by
      simp [check_guess, h1]
    rw [hv]
    refine ⟨⟨fun h => by simp at h, fun h => absurd h.1 a1⟩, fun _ => rfl,
      fun h => absurd h a1, fun h => absurd h a1, fun h => absurd h a1,
      fun h => absurd h a1, fun h => absurd h a1⟩

theorem check_guess_conditions_witness :
    (check_guess "TOPS".toList "TOP".toList
        { numWords := 2, wordArray := ["STOP".toList, "TOPS".toList] }
        { numWords := 1, wordArray := ["STOP".toList] }).1 = true ∧
    ((∀ c ∈ "TOPS".toList, isalpha c = true) ∧
      (∃ pre post, "TOPS".toList = pre ++ "TOP".toList ++ post) ∧
      "TOPS".toList ≠ "TOP".toList ∧
      "TOPS".toList ∈ (["STOP".toList, "TOPS".toList] : List (List Char)).take 2 ∧
      "TOPS".toList ∉ (["STOP".toList] : List (List Char)).take 1) ∧
    ¬ (∀ c ∈ "T0".toList, isalpha c = true) ∧
    check_guess "T0".toList "TOP".toList
        { numWords := 2, wordArray := ["STOP".toList, "TOPS".toList] }
        { numWords := 1, wordArray := ["STOP".toList] } =
      (false, some "Guesses must contain only letters - try again.\n".toList) :=
  ⟨by decide,
    (check_guess_conditions "TOPS".toList "TOP".toList
        { numWords := 2, wordArray := ["STOP".toList, "TOPS".toList] }
        { numWords := 1, wordArray := ["STOP".toList] }).1.mp (by decide),
    by decide,
    (check_guess_conditions "T0".toList "TOP".toList
        { numWords := 2, wordArray := ["STOP".toList, "TOPS".toList] }
        { numWords := 1, wordArray := ["STOP".toList] }).2.1 (by decide)⟩

end UqWordiplySolution

namespace TestUqWordiply

theorem store_at_end (pre : List (Option (Option (List Char)))) (r : Nat) (out : List Nat)
    (value : Option (List Char)) :
    ArgArray.store { slots := pre ++ List.replicate (r + 1) none, outside := out }
        pre.length value
      = { slots := (pre ++ [some value]) ++ List.replicate r none, outside := out } := by
  unfold ArgArray.store
  have hlt : pre.length < (pre ++ List.replicate (r + 1) (none : Option (Option (List Char)))).length := by
    simp
  simp only [hlt, if_true]
  simp [List.replicate_succ]

theorem get_jobs_copy_fill (args : List (List Char))
    (pre : List (Option (Option (List Char)))) (r : Nat) (out : List Nat) :
    get_jobs_copy args pre.length
        { slots := pre ++ List.replicate (args.length + r) none, outside := out }
      = { slots := pre ++ args.map (fun arg => some (some arg)) ++ List.replicate r none
          outside := out } := by
  induction args generalizing pre with
  | nil => simp [get_jobs_copy]
  | cons arg more ih =>
    have e : (arg :: more).length + r = (more.length + r) + 1 := by simp; omega
    rw [e]
    unfold get_jobs_copy
    rw [store_at_end]
    have := ih (pre ++ [some (some arg)])
    simp only [List.length_append, List.length_singleton] at this
    rw [this]
    simp

/-- C30: for every job line, the array `get_jobs` builds has the first string
at index 0 and the `k` arguments at indices 1..k, but its slot `k + 1` is never
written, and the store of NULL goes to index `k + 2`, outside the `k + 2`
slots; so on the line `in.txt,--start TOP` the NULL lands at index 4 of an
array of 4 slots and slot 3 holds what `malloc` left there. -/
theorem get_jobs_null_outside :
    (∀ (first : List Char) (args : List (List Char)),
      get_jobs_args first args =
        { slots := some (some first) :: args.map (fun arg => some (some arg)) ++ [none]
          outside := [args.length + 2] }) ∧
    get_jobs_args "in.txt".toList ["--start".toList, "TOP".toList] =
      { slots := [some (some "in.txt".toList), some (some "--start".toList),
          some (some "TOP".toList), none]
        outside := [4] } ∧
    (get_jobs_args "in.txt".toList ["--start".toList, "TOP".toList]).slots.length = 2 + 2 := by
  refine ⟨?_, by decide, by decide⟩
  intro first args
  unfold get_jobs_args ArgArray.malloc
  have h := get_jobs_copy_fill args [none] 1 []
  have e : List.replicate (args.length + 2) (none : Option (Option (List Char)))
      = [none] ++ List.replicate (args.length + 1) none := by
    simp [List.replicate_succ]
  simp only [e]
  simp only [List.length_singleton] at h
  rw [h]
  simp [ArgArray.store]

end TestUqWordiply

namespace UqWordiply

/-- C27: on `A1` the function `str_all_alpha` returns true although `1` is not
a letter: the loop stops before the last character.  On the empty string the
bound wraps and the terminator is read, so it returns false. -/
theorem str_all_alpha_skips_last :
    str_all_alpha "A1".toList = true ∧ isalpha '1' = false ∧
    str_all_alpha "AB1".toList = true ∧
    str_all_alpha "1A".toList = false ∧
    str_all_alpha [] = false ∧ (∀ c ∈ ([] : List Char), isalpha c = true) := by
  refine ⟨by decide, by decide, by decide, by decide, by decide, by simp⟩

end UqWordiply
